import Mathlib

set_option maxRecDepth 10000

/-!
Verification development for the wdht repository (a browser-capable
Kademlia DHT).  The definitions below are shallow embeddings of the Rust
sources: identifiers (dht/src/id.rs), the k-bucket and k-tree routing
table (logic/src/kbucket.rs, logic/src/ktree.rs), the topic storage
(logic/src/storage.rs), the DHT request handler (logic/src/dht.rs), the
iterative-search window (logic/src/search/mod.rs) and the WebRTC
connection registry (wdht/src/wrtc/mod.rs).  Machine integers are
modelled as Nat with explicit wrap-around where the source wraps;
fallible operations return Option.
-/

namespace Wdht

/-- Modelled from the spec: the consts module is declared but absent from the
sources; the spec fixes identifiers at 20 bytes. -/
def ID_LEN : Nat := 20

/-- Modelled from the spec: 160 bits per identifier. -/
def ID_LEN_BITS : Nat := 160

/-- An identifier: the byte array Id(pub [u8; ID_LEN]) of dht/src/id.rs,
as a list of byte values (most significant byte first, like index 0 of
the Rust array). -/
abbrev Id := List Nat

/-- Validity of an identifier value: 20 bytes, each below 256. -/
def IsId (a : Id) : Prop := a.length = ID_LEN ∧ ∀ x ∈ a, x < 256

/-- Byte-wise xor, the BitXor impl of dht/src/id.rs (bimap_bytes with u8 xor). -/
def idXor (a b : Id) : Id := List.zipWith (fun x y => x ^^^ y) a b

/-- u8::leading_zeros of one byte value, written as a comparison chain so
that it evaluates by kernel reduction. -/
def byteClz (x : Nat) : Nat :=
  if x = 0 then 8
  else if x < 2 then 7
  else if x < 4 then 6
  else if x < 8 then 5
  else if x < 16 then 4
  else if x < 32 then 3
  else if x < 64 then 2
  else if x < 128 then 1
  else 0

/-- Id::leading_zeros of dht/src/id.rs: walk the bytes from index 0, add 8
for each zero byte, stop at the first non-zero byte adding its own
leading-zero count. -/
def leadZeros : Id → Nat
  | [] => 0
  | x :: t => if x = 0 then 8 + leadZeros t else byteClz x

/-- The identifier viewed as a big-endian integer (the order its derived
Ord instance gives on equal-length byte arrays). -/
def idToNat : Id → Nat
  | [] => 0
  | x :: t => x * 256 ^ t.length + idToNat t

/-- Lexicographic order on the byte lists: the derived Ord of Id. -/
def idLeB : Id → Id → Bool
  | [], _ => true
  | _ :: _, [] => false
  | x :: a, y :: b => if x < y then true else if y < x then false else idLeB a b

/-- The loop of Id::create_left_mask of dht/src/id.rs: starting at byte
index ID_LEN - 1 and moving DOWN, write 0xFF while more than 8 bits
remain, then write 0xFF >> (8 - len) and stop. -/
def maskLoopGo : Nat → List Nat → Nat → List Nat
  | len + 9, res, i => maskLoopGo (len + 1) (res.set i 255) (i - 1)
  | len, res, i => res.set i (255 >>> (8 - len))

/-- Id::create_left_mask of dht/src/id.rs. -/
def create_left_mask (len : Nat) : Id :=
  maskLoopGo len (List.replicate ID_LEN 0) (ID_LEN - 1)

/-- Stable insertion into a list already sorted by the boolean relation
le: the new element goes after every leading element y with le y x. -/
def insertSorted {α : Type} (le : α → α → Bool) (x : α) : List α → List α
  | [] => [x]
  | y :: ys => if le y x then y :: insertSorted le x ys else x :: y :: ys

/-- Stable sort by the boolean relation le, processing elements left to
right; models Rust slice::sort_by_key (and sort_unstable_by_key where it
is used with an injective key, so that stability cannot matter). -/
def sortByB {α : Type} (le : α → α → Bool) (l : List α) : List α :=
  l.foldl (fun acc x => insertSorted le x acc) []

/-- Boolean check that adjacent elements are ordered by le. -/
def isSortedB {α : Type} (le : α → α → Bool) : List α → Bool
  | [] => true
  | [_] => true
  | x :: y :: t => le x y && isSortedB le (y :: t)

/-- RoutingConfig of logic/src/config.rs. -/
structure RoutingConfig where
  bucket_size : Nat
  bucket_replacement_size : Nat
  buckets_per_bit : Nat
  max_routing_count : Option Nat
deriving DecidableEq

/-- KBucket of logic/src/kbucket.rs. -/
structure KBucket where
  entries : List Id
  replacement_cache : List Id
deriving DecidableEq

instance : Inhabited KBucket := ⟨⟨[], []⟩⟩

/-- One right rotation of a slice, slice::rotate_right(1): the last
element moves to the front. -/
def rotR1 {α : Type} (l : List α) : List α :=
  l.drop (l.length - 1) ++ l.take (l.length - 1)

/-- KBucket::refresh_node of logic/src/kbucket.rs: find the index of id
in entries and rotate the suffix starting there right by one; returns
the new bucket and whether the id was found. -/
def KBucket.refresh_node (b : KBucket) (id : Id) : KBucket × Bool :=
  match b.entries.findIdx? (fun x => decide (x = id)) with
  | some index =>
      ({ b with entries := b.entries.take index ++ rotR1 (b.entries.drop index) }, true)
  | none => (b, false)

/-- KBucket::has of logic/src/kbucket.rs. -/
def KBucket.has (b : KBucket) (id : Id) : Bool :=
  (b.entries ++ b.replacement_cache).any (fun x => decide (x = id))

/-- KBucket::insert of logic/src/kbucket.rs; the returned list holds the
ids handed to contacter.ping (pinged when the id goes to the
replacement cache). -/
def KBucket.insert (b : KBucket) (id : Id) (config : RoutingConfig) :
    KBucket × Bool × List Id :=
  if b.has id then (b, false, [])
  else if b.entries.length < config.bucket_size then
    ({ b with entries := b.entries ++ [id] }, true, [])
  else if b.replacement_cache.length < config.bucket_replacement_size then
    ({ b with replacement_cache := b.replacement_cache ++ [id] }, true, b.entries)
  else (b, false, [])

/-- u8::wrapping_shr: the shift amount is taken mod 8. -/
def wshr8 (x s : Nat) : Nat := x >>> (s % 8)

/-- u8::wrapping_shl followed by truncation to a byte. -/
def wshl8 (x s : Nat) : Nat := (x <<< (s % 8)) % 256

/-- Id::bitslice of dht/src/id.rs: len contiguous bits starting at bit
index (bit 0 is the most significant bit of byte 0), right-aligned. -/
def bitslice (a : Id) (index : Nat) (len : Nat) : Nat :=
  let entryi := index / 8
  let bytei := index % 8
  let byte := a.getD entryi 0
  let firstlen := min 8 (len + bytei) - bytei
  let secondlen := len - firstlen
  let res := wshr8 byte (8 - bytei - firstlen) &&& (255 ^^^ wshl8 255 firstlen)
  if secondlen = 0 then res
  else
    let byte2l := bytei + len - 8
    let byte2 := a.getD (entryi + 1) 0
    (res <<< secondlen) ||| ((byte2 &&& (255 ^^^ (255 >>> byte2l))) >>> (8 - secondlen))

/-- KTreeEntry of logic/src/ktree.rs. -/
structure KTreeEntry where
  buckets : List KBucket
deriving DecidableEq

instance : Inhabited KTreeEntry := ⟨⟨[]⟩⟩

/-- KTree of logic/src/ktree.rs. -/
structure KTree where
  id : Id
  config : RoutingConfig
  nodes : List KTreeEntry
  size : Nat
deriving DecidableEq

/-- KTreeEntry::new: 2^(buckets_per_bit - 1) empty buckets. -/
def KTreeEntry.new (config : RoutingConfig) : KTreeEntry :=
  ⟨List.replicate (2 ^ (config.buckets_per_bit - 1)) ⟨[], []⟩⟩

/-- KTree::new: ID_LEN_BITS fresh entries, size 0. -/
def KTree.new (id : Id) (config : RoutingConfig) : KTree :=
  ⟨id, config, List.replicate ID_LEN_BITS (KTreeEntry.new config), 0⟩

/-- KTree::get_bucket_index of logic/src/ktree.rs. -/
def KTree.get_bucket_index (t : KTree) (id : Id) : Nat × Nat :=
  let nid := idXor t.id id
  let entryi := min (leadZeros nid) (ID_LEN_BITS - t.config.buckets_per_bit)
  let bucketi :=
    if t.config.buckets_per_bit = 1 then 0
    else bitslice nid (entryi + 1) (t.config.buckets_per_bit - 1)
  (entryi, bucketi)

/-- KTree::has of logic/src/ktree.rs. -/
def KTree.has (t : KTree) (id : Id) : Bool :=
  let idx := t.get_bucket_index id
  (((t.nodes.getD idx.1 default).buckets.getD idx.2 default).has id)

/-- KTree::insert of logic/src/ktree.rs; the returned list holds the ids
pinged through the contacter. -/
def KTree.insert (t : KTree) (id : Id) : KTree × Bool × List Id :=
  if id = t.id then (t, false, [])
  else if (match t.config.max_routing_count with
           | some m => decide (m ≤ t.size)
           | none => false) then (t, false, [])
  else
    let idx := t.get_bucket_index id
    let entry := t.nodes.getD idx.1 default
    let bucket := entry.buckets.getD idx.2 default
    let r := bucket.insert id t.config
    let entry2 : KTreeEntry := ⟨entry.buckets.set idx.2 r.1⟩
    ({ t with nodes := t.nodes.set idx.1 entry2,
              size := if r.2.1 then t.size + 1 else t.size }, r.2.1, r.2.2)

/-- KTree::refresh of logic/src/ktree.rs. -/
def KTree.refresh (t : KTree) (id : Id) : KTree × Bool :=
  let idx := t.get_bucket_index id
  let entry := t.nodes.getD idx.1 default
  let bucket := entry.buckets.getD idx.2 default
  let r := bucket.refresh_node id
  let entry2 : KTreeEntry := ⟨entry.buckets.set idx.2 r.1⟩
  ({ t with nodes := t.nodes.set idx.1 entry2 }, r.2)

/-- NodeAggregator::add_bucket of logic/src/ktree.rs: push every id of
the bucket entries. -/
def addBucket (acc : List Id) (b : KBucket) : List Id := acc ++ b.entries

/-- NodeAggregator::add_entry: add every bucket of one tree entry. -/
def addEntry (acc : List Id) (e : KTreeEntry) : List Id :=
  e.buckets.foldl addBucket acc

/-- NodeAggregator::is_done: enough ids collected. -/
def aggDone (acc : List Id) (limit : Nat) : Bool := limit ≤ acc.length

/-- NodeAggregator::finish: sort by the xor distance to closer_to (the
derived lexicographic Ord of Id) and truncate. -/
def aggFinish (acc : List Id) (limit : Nat) (closerTo : Id) : List Id :=
  (sortByB (fun x y => idLeB (idXor closerTo x) (idXor closerTo y)) acc).take limit

/-- The right-hand walk of KTree::get_closer_n (entries e0+1 and up):
stops early as soon as the aggregator is full, reporting whether it
stopped early. -/
def goRight (limit : Nat) : List KTreeEntry → List Id → List Id × Bool
  | [], acc => (acc, false)
  | e :: rest, acc =>
      let acc2 := addEntry acc e
      if aggDone acc2 limit then (acc2, true) else goRight limit rest acc2

/-- The left-hand walk of KTree::get_closer_n (entries e0-1 down to 0,
already reversed by the caller): stops as soon as the aggregator is
full. -/
def goLeft (limit : Nat) : List KTreeEntry → List Id → List Id
  | [], acc => acc
  | e :: rest, acc =>
      let acc2 := addEntry acc e
      if aggDone acc2 limit then acc2 else goLeft limit rest acc2

/-- KTree::get_closer_n of logic/src/ktree.rs: collect from the target
bucket, then the other buckets of the target entry, then walk the right
side adding the left neighbour when full, and only walk the left side
when the right side was exhausted; finally sort by xor distance and
truncate. -/
def KTree.get_closer_n (t : KTree) (closerTo : Id) (size : Nat) : List Id :=
  let idx := t.get_bucket_index closerTo
  let fentry := t.nodes.getD idx.1 default
  let acc1 := addBucket [] (fentry.buckets.getD idx.2 default)
  if aggDone acc1 size then aggFinish acc1 size closerTo else
  let acc2 := (fentry.buckets.enum.foldl
    (fun a p => if p.1 = idx.2 then a else addBucket a p.2) acc1)
  if aggDone acc2 size then aggFinish acc2 size closerTo else
  let r := goRight size (t.nodes.drop (idx.1 + 1)) acc2
  if r.2 then
    let acc3 := if idx.1 ≠ 0 then addEntry r.1 (t.nodes.getD (idx.1 - 1) default)
                else r.1
    aggFinish acc3 size closerTo
  else
    aggFinish (goLeft size ((t.nodes.take idx.1).reverse) r.1) size closerTo

/-- All ids stored in the tree, in entry order (the reference notion of
what the table contains). -/
def storedIds (t : KTree) : List Id := t.nodes.foldl addEntry []

/-- The specification of closer-n: sort every stored id by xor distance
to the target and keep the first n. -/
def closestSpecN (t : KTree) (target : Id) (n : Nat) : List Id :=
  (sortByB (fun x y => idLeB (idXor target x) (idXor target y)) (storedIds t)).take n

/-- Modelled from the spec (the transport module holding it is absent
from the sources): a topic entry pairs a publisher id with its data. -/
structure TopicEntry where
  publisher : Id
  data : List Nat
deriving DecidableEq

/-- StorageConfig of logic/src/config.rs. -/
structure StorageConfig where
  max_size : Nat
  max_lifetime : Nat
  max_entries : Nat
deriving DecidableEq

/-- The storage Error enum of logic/src/storage.rs. -/
inductive StorageError
  | TooManyEntries
  | InvalidLifetime
  | InvalidData
deriving DecidableEq

/-- Storage of logic/src/storage.rs.  The HashMap of topics is an
association list with distinct keys; the PriorityQueue of deadlines is a
list of (key, priority) records with distinct keys, which is the
representation the priority_queue crate guarantees.  Instants are Nat. -/
structure Storage where
  config : StorageConfig
  entry_count : Nat
  topics : List (Id × List TopicEntry)
  deadlines : List ((Id × Id) × Nat)
deriving DecidableEq

/-- Storage::new. -/
def Storage.new (config : StorageConfig) : Storage := ⟨config, 0, [], []⟩

/-- The topics map lookup at the list level. -/
def findTopic (ts : List (Id × List TopicEntry)) (t : Id) :
    Option (List TopicEntry) :=
  (ts.find? (fun p => decide (p.1 = t))).map (fun p => p.2)

/-- Storage::get: the topics map lookup. -/
def Storage.get (s : Storage) (id : Id) : Option (List TopicEntry) :=
  findTopic s.topics id

/-- Storage::check_entry of logic/src/storage.rs (its unused _topic and
_sender arguments are dropped). -/
def Storage.check_entry (config : StorageConfig) (lifetime : Nat)
    (data : List Nat) : Option StorageError :=
  if config.max_size < data.length then some .InvalidData
  else if config.max_lifetime < lifetime then some .InvalidLifetime
  else none

/-- Deleting the first entry whose publisher matches: the fused form of
the position-then-remove pair in Storage::remove; none when no entry has
that publisher. -/
def removePub : List TopicEntry → Id → Option (List TopicEntry)
  | [], _ => none
  | e :: t, u =>
      if e.publisher = u then some t
      else (removePub t u).map (fun l => e :: l)

/-- In-place update of the value stored under one key of the topics
map. -/
def topicsSet (ts : List (Id × List TopicEntry)) (k : Id)
    (v : List TopicEntry) : List (Id × List TopicEntry) :=
  ts.map (fun p => if p.1 = k then (k, v) else p)

/-- Removal of one key from the topics map. -/
def eraseTopic (ts : List (Id × List TopicEntry)) (k : Id) :
    List (Id × List TopicEntry) :=
  ts.filter (fun p => decide (p.1 ≠ k))

/-- PriorityQueue::remove by key (keys are unique in the queue). -/
def eraseDeadline (dl : List ((Id × Id) × Nat)) (k : Id × Id) :
    List ((Id × Id) × Nat) :=
  dl.filter (fun r => decide (r.1 ≠ k))

/-- PriorityQueue::push: update the priority when the key is already
present, append otherwise. -/
def pushDeadline (dl : List ((Id × Id) × Nat)) (k : Id × Id) (d : Nat) :
    List ((Id × Id) × Nat) :=
  if dl.any (fun r => decide (r.1 = k)) then
    dl.map (fun r => if r.1 = k then (k, d) else r)
  else dl ++ [(k, d)]

/-- Storage::remove of logic/src/storage.rs: delete the (topic, user)
entry when present, drop the topic key when its list becomes empty,
decrement the count, and remove the matching deadline record. -/
def Storage.remove (s : Storage) (topic user : Id) : Storage :=
  match s.get topic with
  | none => s
  | some l =>
      match removePub l user with
      | none => s
      | some l2 =>
          { s with
            topics := if l2.isEmpty then eraseTopic s.topics topic
                      else topicsSet s.topics topic l2,
            entry_count := s.entry_count - 1,
            deadlines := eraseDeadline s.deadlines (topic, user) }

/-- Instant::checked_add: the sum when it stays representable (imax is
the last representable instant), none on overflow. -/
def checkedAdd (now lifetime imax : Nat) : Option Nat :=
  if now + lifetime ≤ imax then some (now + lifetime) else none

/-- Storage::insert of logic/src/storage.rs, in the source's order:
check_entry, then the unconditional remove, then the max_entries check,
then the checked deadline addition, then the append and the heap push. -/
def Storage.insert (s : Storage) (now imax : Nat) (topic publisher : Id)
    (lifetime : Nat) (data : List Nat) : Storage × Option StorageError :=
  match Storage.check_entry s.config lifetime data with
  | some e => (s, some e)
  | none =>
      let s1 := s.remove topic publisher
      if s1.config.max_entries ≤ s1.entry_count then (s1, some .TooManyEntries)
      else
        match checkedAdd now lifetime imax with
        | none => (s1, some .InvalidLifetime)
        | some deadline =>
            let entry : TopicEntry := ⟨publisher, data⟩
            let topics2 :=
              match s1.get topic with
              | some l => topicsSet s1.topics topic (l ++ [entry])
              | none => s1.topics ++ [(topic, [entry])]
            (⟨s1.config, s1.entry_count + 1, topics2,
              pushDeadline s1.deadlines (topic, publisher) deadline⟩, none)

/-- PriorityQueue::peek of the priority_queue crate: a record of maximal
priority (the head is preferred on ties). -/
def peekMaxDeadline : List ((Id × Id) × Nat) → Option ((Id × Id) × Nat)
  | [] => none
  | r :: rest =>
      match peekMaxDeadline rest with
      | none => some r
      | some m => if m.2 ≤ r.2 then some r else some m

/-- The expiry loop of Storage::periodic_run: while the top deadline is
not after now, pop it and remove the corresponding entry.  The fuel is
the queue length, which bounds the number of pops. -/
def periodicGo : Nat → Storage → Nat → Storage
  | 0, s, _ => s
  | fuel + 1, s, now =>
      match peekMaxDeadline s.deadlines with
      | none => s
      | some r =>
          if now < r.2 then s
          else
            periodicGo fuel
              (Storage.remove { s with deadlines := eraseDeadline s.deadlines r.1 }
                r.1.1 r.1.2) now

/-- Storage::periodic_run of logic/src/storage.rs. -/
def Storage.periodic_run (s : Storage) (now : Nat) : Storage :=
  periodicGo s.deadlines.length s now

/-- One storage operation, for reasoning about arbitrary operation
sequences. -/
inductive StorageOp
  | ins (now imax : Nat) (topic publisher : Id) (lifetime : Nat) (data : List Nat)
  | rem (topic user : Id)
  | run (now : Nat)

/-- Apply one storage operation. -/
def applyOp (s : Storage) : StorageOp → Storage
  | .ins now imax t p lt d => (s.insert now imax t p lt d).1
  | .rem t u => s.remove t u
  | .run now => s.periodic_run now

/-- The publishers stored under one topic of the topics map ([] when
the topic is absent). -/
def pubsAt (ts : List (Id × List TopicEntry)) (t : Id) : List Id :=
  match findTopic ts t with
  | some l => l.map (fun e => e.publisher)
  | none => []

/-- The publishers stored under one topic ([] when the topic is
absent). -/
def Storage.pubsOf (s : Storage) (t : Id) : List Id :=
  pubsAt s.topics t

/-- The storage invariant of claim C7: the count equals the sum of the
list lengths, no topic maps to an empty list, publishers are unique per
topic, the map keys and the heap keys are without duplicates, and a
(topic, publisher) pair is in the heap exactly when it is in the map. -/
def StorageInv (s : Storage) : Prop :=
  s.entry_count = (s.topics.map (fun p => p.2.length)).sum
  ∧ (∀ tp ∈ s.topics, tp.2 ≠ [])
  ∧ (∀ t, (s.pubsOf t).Nodup)
  ∧ (s.topics.map Prod.fst).Nodup
  ∧ (s.deadlines.map Prod.fst).Nodup
  ∧ (∀ t p, (t, p) ∈ s.deadlines.map Prod.fst ↔ p ∈ s.pubsOf t)

/-- Request of the logic transport module (modelled from the spec where
the module is absent from the sources: FindNodes, FindData with a limit,
Insert, Remove). -/
inductive Request
  | FindNodes (topic : Id)
  | FindData (topic : Id) (limit : Nat)
  | Insert (topic : Id) (lifetime : Nat) (data : List Nat)
  | Remove (topic : Id)

/-- Response of the logic transport module (modelled from the spec where
the module is absent from the sources). -/
inductive Response
  | FoundNodes (ids : List Id)
  | FoundData (entries : List TopicEntry)
  | Done
  | Error
deriving DecidableEq

/-- The state a KademliaDht of logic/src/dht.rs owns: its config, its
own id, the routing tree and the storage. -/
structure DhtState where
  configRouting : RoutingConfig
  selfId : Id
  tree : KTree
  storage : Storage
deriving DecidableEq

/-- KademliaDht::on_request of logic/src/dht.rs: refresh the sender in
the tree, then dispatch on the request. -/
def on_request (s : DhtState) (now imax : Nat) (sender : Id)
    (message : Request) : DhtState × Response :=
  let t2 := (s.tree.refresh sender).1
  match message with
  | .FindNodes topic =>
      let found := (t2.get_closer_n topic s.configRouting.bucket_size).filter
        (fun x => decide (x ≠ sender))
      ({ s with tree := t2 }, .FoundNodes found)
  | .FindData topic limit =>
      match s.storage.get topic with
      | some entries =>
          ({ s with tree := t2 },
           .FoundData (entries.drop (entries.length - limit)))
      | none =>
          ({ s with tree := t2 },
           .FoundNodes ((t2.get_closer_n topic s.configRouting.bucket_size).filter
             (fun x => decide (x ≠ sender))))
  | .Insert topic lifetime data =>
      let r := s.storage.insert now imax topic sender lifetime data
      ({ s with tree := t2, storage := r.1 },
       match r.2 with | none => .Done | some _ => .Error)
  | .Remove topic =>
      ({ s with tree := t2, storage := s.storage.remove topic sender }, .Done)

/-- KademliaDht::on_connect of logic/src/dht.rs: insert into the tree
and report whether routing adopted the peer. -/
def on_connect (s : DhtState) (id : Id) : DhtState × Bool :=
  let r := s.tree.insert id
  ({ s with tree := r.1 }, r.2.1)

/-- The u64 wrap-around modulus. -/
def U64MOD : Nat := 2 ^ 64

/-- AtomicU64::fetch_add(1) result (wrapping). -/
def wAdd1 (x : Nat) : Nat := (x + 1) % U64MOD

/-- AtomicU64::fetch_sub(1) result (wrapping). -/
def wSub1 (x : Nat) : Nat := (x + (U64MOD - 1)) % U64MOD

/-- The registry state of Connections in wdht/src/wrtc/mod.rs: the
shutdown flag, the atomic counters, the connection map (its distinct
keys, as a list) and the half-closed FIFO. -/
structure ConnState where
  is_shutting_down : Bool
  connection_count : Nat
  connected_count : Nat
  connections : List Id
  half_closed_connections : List Id
  half_closed_count : Nat
deriving DecidableEq

/-- The registry as Connections::create builds it. -/
def initConn : ConnState := ⟨false, 0, 0, [], [], 0⟩

/-- VecDeque removal of the first occurrence of one id (the
position-then-remove pair of Connections::on_disconnect). -/
def removeFirstId : List Id → Id → List Id
  | [], _ => []
  | x :: t, v => if x = v then t else x :: removeFirstId t v

/-- Connections::on_disconnect of wdht/src/wrtc/mod.rs: drop the map
entry, optionally decrement the connection counters, and when the
connection was half closed decrement that counter and drop the FIFO
entry. -/
def onDisconnect (s : ConnState) (peer : Id)
    (update_conn_count was_half_closed : Bool) : ConnState :=
  let s1 := { s with connections := s.connections.filter (fun x => decide (x ≠ peer)) }
  let s2 := if update_conn_count then
      { s1 with connection_count := wSub1 s1.connection_count,
                connected_count := wSub1 s1.connected_count }
    else s1
  if was_half_closed then
    { s2 with half_closed_count := wSub1 s2.half_closed_count,
              half_closed_connections := removeFirstId s2.half_closed_connections peer }
  else s2

/-- Connections::on_half_closed: push to the FIFO and bump the counter. -/
def onHalfClosed (s : ConnState) (id : Id) : ConnState :=
  { s with half_closed_connections := s.half_closed_connections ++ [id],
           half_closed_count := wAdd1 s.half_closed_count }

/-- Connections::alloc_connection of wdht/src/wrtc/mod.rs: deny when
shutting down; with no limit, increment and admit; under the limit,
increment and admit; otherwise try to consume a half-closed connection,
popping the FIFO and evicting that connection through on_disconnect with
update_conn_count = false; deny when no permit is found. -/
def allocConnection (maxc : Option Nat) (s : ConnState) : ConnState × Bool :=
  if s.is_shutting_down then (s, false)
  else
    match maxc with
    | none => ({ s with connection_count := wAdd1 s.connection_count }, true)
    | some limit =>
        if s.connection_count < limit then
          ({ s with connection_count := s.connection_count + 1 }, true)
        else if 0 < s.half_closed_count then
          let s1 := { s with half_closed_count := s.half_closed_count - 1 }
          match s1.half_closed_connections with
          | [] => (s1, false)
          | id :: rest =>
              let s2 := { s1 with half_closed_connections := rest }
              if s2.connections.any (fun x => decide (x = id)) then
                let s3 := { s2 with
                  connections := s2.connections.filter (fun x => decide (x ≠ id)),
                  connected_count := wSub1 s2.connected_count }
                (onDisconnect s3 id false false, true)
              else (s2, true)
        else (s, false)

/-- One registry step of claim C5. -/
inductive ConnStep
  | alloc
  | disc (peer : Id) (update was_half : Bool)
  | halfClosed (id : Id)

/-- Apply one registry step. -/
def applyConnStep (maxc : Option Nat) (s : ConnState) : ConnStep → ConnState
  | .alloc => (allocConnection maxc s).1
  | .disc p u w => onDisconnect s p u w
  | .halfClosed i => onHalfClosed s i

/-- Registry states reachable from the initial state under the program's
discipline: on_disconnect with update_conn_count = true is only invoked
for a registered connection, hence while the connection count is
positive. -/
inductive ReachC (maxc : Option Nat) : ConnState → Prop
  | init : ReachC maxc initConn
  | alloc {s} : ReachC maxc s → ReachC maxc (allocConnection maxc s).1
  | halfClosed {s} (i : Id) : ReachC maxc s → ReachC maxc (onHalfClosed s i)
  | disc {s} (p : Id) (u w : Bool) : ReachC maxc s →
      (u = true → 0 < s.connection_count) → ReachC maxc (onDisconnect s p u w)

/-- QueryState of logic/src/search/mod.rs. -/
inductive QueryState
  | Waiting
  | Querying
  | Queried
deriving DecidableEq

/-- The sort key of BasicSearch::sort_bucket: the leading zeros of the
contact id xored with the target (sorted descending through Reverse). -/
def searchKey (target : Id) (c : Id) : Nat := leadZeros (idXor c target)

/-- The sort relation of BasicSearch::sort_bucket: b's key at most a's,
i.e. descending leading-zeros order (Reverse(clz) ascending). -/
def descLe (target : Id) (a b : QueryState × Id) : Bool :=
  decide (searchKey target b.2 ≤ searchKey target a.2)

/-- BasicSearch::sort_bucket of logic/src/search/mod.rs: stable sort by
Reverse(leading_zeros of xor with the target). -/
def sort_bucket (target : Id) (l : List (QueryState × Id)) :
    List (QueryState × Id) :=
  sortByB (descLe target) l

/-- The initial to_query window of BasicSearch::search: the first bucket
in Waiting state, a Queried marker for self, then sort_bucket; the
source applies no truncation here. -/
def seedWindow (target selfId : Id) (firstBucket : List Id) :
    List (QueryState × Id) :=
  sort_bucket target
    ((firstBucket.map (fun x => (QueryState.Waiting, x))) ++
      [(QueryState.Queried, selfId)])

/-- The FoundNodes filter of BasicSearch::search: walk the returned
nodes, keep those whose id enters the queried set (dropping previously
seen ids and duplicates), and wrap them in Waiting state. -/
def insertNewNodes (queried : List Id) (nodes : List Id) :
    List Id × List (QueryState × Id) :=
  nodes.foldl
    (fun acc x =>
      if acc.1.any (fun y => decide (y = x)) then acc
      else (x :: acc.1, acc.2 ++ [(QueryState.Waiting, x)]))
    (queried, [])

/-- The to_query mutation of the FoundNodes branch of
BasicSearch::search: extend with the new Waiting entries, re-sort and
truncate to the bucket size. -/
def processFoundNodes (k : Nat) (target : Id)
    (window : List (QueryState × Id)) (queried : List Id)
    (nodes : List Id) : List (QueryState × Id) × List Id :=
  let r := insertNewNodes queried nodes
  ((sort_bucket target (window ++ r.2)).take k, r.1)

/-- The ordering the claim asserts of the window: adjacent entries
ascending by the xor distance itself (the big-endian value order). -/
def ascByDist (target : Id) (w : List (QueryState × Id)) : Bool :=
  isSortedB (fun a b => idLeB (idXor target a.2) (idXor target b.2)) w

/-! Helper lemmas. -/

theorem size_range_eq {x k : Nat} (h1 : 2 ^ k ≤ x) (h2 : x < 2 ^ (k + 1)) :
    Nat.size x = k + 1 :=
  le_antisymm (Nat.size_le.mpr h2) (Nat.lt_size.mpr h1)

theorem byteClz_eq {x : Nat} (h0 : x ≠ 0) (h : x < 256) :
    byteClz x = 8 - Nat.size x := by
  unfold byteClz
  by_cases c1 : x < 2
  · have hs : Nat.size x = 1 := size_range_eq (by omega) (by omega)
    simp [h0, c1, hs]
  by_cases c2 : x < 4
  · have hs : Nat.size x = 2 := size_range_eq (by omega) (by omega)
    simp [h0, c1, c2, hs]
  by_cases c3 : x < 8
  · have hs : Nat.size x = 3 := size_range_eq (by omega) (by omega)
    simp [h0, c1, c2, c3, hs]
  by_cases c4 : x < 16
  · have hs : Nat.size x = 4 := size_range_eq (by omega) (by omega)
    simp [h0, c1, c2, c3, c4, hs]
  by_cases c5 : x < 32
  · have hs : Nat.size x = 5 := size_range_eq (by omega) (by omega)
    simp [h0, c1, c2, c3, c4, c5, hs]
  by_cases c6 : x < 64
  · have hs : Nat.size x = 6 := size_range_eq (by omega) (by omega)
    simp [h0, c1, c2, c3, c4, c5, c6, hs]
  by_cases c7 : x < 128
  · have hs : Nat.size x = 7 := size_range_eq (by omega) (by omega)
    simp [h0, c1, c2, c3, c4, c5, c6, c7, hs]
  · have hs : Nat.size x = 8 := size_range_eq (by omega) (by omega)
    simp [h0, c1, c2, c3, c4, c5, c6, c7, hs]

theorem idToNat_lt_pow {a : Id} (h : ∀ x ∈ a, x < 256) :
    idToNat a < 256 ^ a.length := by
  induction a with
  | nil => simp [idToNat]
  | cons x t ih =>
    have hx : x < 256 := h x (List.mem_cons_self x t)
    have ht := ih (fun y hy => h y (List.mem_cons_of_mem x hy))
    calc idToNat (x :: t) = x * 256 ^ t.length + idToNat t := rfl
      _ < x * 256 ^ t.length + 256 ^ t.length := by omega
      _ = (x + 1) * 256 ^ t.length := by ring
      _ ≤ 256 * 256 ^ t.length := by
          exact Nat.mul_le_mul_right _ (by omega)
      _ = 256 ^ (x :: t).length := by
          simp [List.length_cons, pow_succ]; ring

theorem size_mul_pow_add {x k r : Nat} (hx : x ≠ 0) (hr : r < 2 ^ k) :
    Nat.size (x * 2 ^ k + r) = Nat.size x + k := by
  have hup : x * 2 ^ k + r < 2 ^ (Nat.size x + k) := by
    have h1 : x < 2 ^ Nat.size x := Nat.lt_size_self x
    calc x * 2 ^ k + r < x * 2 ^ k + 2 ^ k := by omega
      _ = (x + 1) * 2 ^ k := by ring
      _ ≤ 2 ^ Nat.size x * 2 ^ k := Nat.mul_le_mul_right _ (by omega)
      _ = 2 ^ (Nat.size x + k) := (pow_add 2 _ _).symm
  have hpos : 1 ≤ Nat.size x := Nat.size_pos.mpr (Nat.pos_of_ne_zero hx)
  have hlow : 2 ^ (Nat.size x - 1 + k) ≤ x * 2 ^ k + r := by
    have h2 : 2 ^ (Nat.size x - 1) ≤ x := Nat.lt_size.mp (by omega)
    calc 2 ^ (Nat.size x - 1 + k) = 2 ^ (Nat.size x - 1) * 2 ^ k := pow_add 2 _ _
      _ ≤ x * 2 ^ k := Nat.mul_le_mul_right _ h2
      _ ≤ x * 2 ^ k + r := Nat.le_add_right _ _
  have := size_range_eq hlow (by
    have : Nat.size x - 1 + k + 1 = Nat.size x + k := by omega
    rw [this]; exact hup)
  omega

theorem pow256_eq (n : Nat) : (256 : Nat) ^ n = 2 ^ (8 * n) := by
  have : (256 : Nat) = 2 ^ 8 := by norm_num
  rw [this, ← pow_mul]

theorem leadZeros_eq {a : Id} (h : ∀ x ∈ a, x < 256) :
    leadZeros a = 8 * a.length - Nat.size (idToNat a) := by
  induction a with
  | nil => simp [leadZeros, idToNat]
  | cons x t ih =>
    have hx : x < 256 := h x (List.mem_cons_self x t)
    have ht : ∀ y ∈ t, y < 256 := fun y hy => h y (List.mem_cons_of_mem x hy)
    have hlt : idToNat t < 2 ^ (8 * t.length) := by
      have := idToNat_lt_pow ht; rwa [pow256_eq] at this
    by_cases hx0 : x = 0
    · have hs : Nat.size (idToNat t) ≤ 8 * t.length := Nat.size_le.mpr hlt
      have : idToNat (x :: t) = idToNat t := by simp [idToNat, hx0]
      rw [this]
      have : leadZeros (x :: t) = 8 + leadZeros t := by simp [leadZeros, hx0]
      rw [this, ih ht]
      simp [List.length_cons]
      omega
    · have hsx : Nat.size x ≤ 8 := Nat.size_le.mpr (by norm_num; omega)
      have h1 : leadZeros (x :: t) = byteClz x := by simp [leadZeros, hx0]
      have h2 : idToNat (x :: t) = x * 2 ^ (8 * t.length) + idToNat t := by
        simp [idToNat, pow256_eq]
      rw [h1, h2, byteClz_eq hx0 hx, size_mul_pow_add hx0 hlt]
      simp [List.length_cons]
      omega

theorem list_set_getD {α : Type} (l : List α) (i : Nat) (d : α) :
    l.set i (l.getD i d) = l := by
  induction l generalizing i with
  | nil => simp
  | cons x t ih =>
    cases i with
    | zero => simp [List.getD]
    | succ n =>
      simp only [List.getD_cons_succ, List.set_cons_succ]
      rw [ih]

theorem ktreeEntry_eta (e : KTreeEntry) : (⟨e.buckets⟩ : KTreeEntry) = e := rfl

theorem kbucket_insert_has {b : KBucket} {id : Id} {cfg : RoutingConfig}
    (h : b.has id = true) : b.insert id cfg = (b, false, []) := by
  simp [KBucket.insert, h]

theorem ktree_insert_has {t : KTree} {id : Id} (h : t.has id = true) :
    t.insert id = (t, false, []) := by
  unfold KTree.insert
  by_cases he : id = t.id
  · simp [he]
  unfold KTree.has at h
  simp only [he, if_false]
  by_cases hm : (match t.config.max_routing_count with
                 | some m => decide (m ≤ t.size)
                 | none => false) = true
  · simp [hm]
  · rw [if_neg (by simp [hm])]
    simp only [kbucket_insert_has h, ktreeEntry_eta, list_set_getD]
    rfl

theorem insertSorted_length {α : Type} (le : α → α → Bool) (x : α) :
    ∀ l : List α, (insertSorted le x l).length = l.length + 1 := by
  intro l
  induction l with
  | nil => rfl
  | cons y ys ih =>
      unfold insertSorted
      by_cases h : le y x = true
      · simp [h, ih]
      · simp [h]

theorem sortByB_length {α : Type} (le : α → α → Bool) (l : List α) :
    (sortByB le l).length = l.length := by
  have hgen : ∀ (l acc : List α),
      (l.foldl (fun acc x => insertSorted le x acc) acc).length =
        acc.length + l.length := by
    intro l
    induction l with
    | nil => intro acc; simp
    | cons x t ih =>
        intro acc
        simp only [List.foldl_cons]
        rw [ih, insertSorted_length]
        simp only [List.length_cons]
        omega
  unfold sortByB
  rw [hgen]
  simp

theorem insertSorted_cons {α : Type} (le : α → α → Bool) (x y : α)
    (ys : List α) :
    insertSorted le x (y :: ys) =
      if le y x then y :: insertSorted le x ys else x :: y :: ys := rfl

theorem isSortedB_cons2 {α : Type} (le : α → α → Bool) (x y : α)
    (t : List α) :
    isSortedB le (x :: y :: t) = (le x y && isSortedB le (y :: t)) := rfl

theorem isSortedB_insertSorted {α : Type} {le : α → α → Bool}
    (htot : ∀ a b, le a b = true ∨ le b a = true) (x : α) :
    ∀ l, isSortedB le l = true → isSortedB le (insertSorted le x l) = true := by
  intro l
  induction l with
  | nil => intro _; rfl
  | cons y ys ih =>
      intro h
      cases ys with
      | nil =>
          rw [insertSorted_cons]
          by_cases hyx : le y x = true
          · rw [if_pos hyx]
            show isSortedB le (y :: [x]) = true
            rw [isSortedB_cons2]
            simp [hyx, isSortedB]
          · have hxy := (htot x y).resolve_right (by simpa using hyx)
            rw [if_neg hyx, isSortedB_cons2]
            simp [hxy, isSortedB]
      | cons z zs =>
          rw [isSortedB_cons2, Bool.and_eq_true] at h
          by_cases hyx : le y x = true
          · have hrec := ih h.2
            rw [insertSorted_cons, if_pos hyx]
            by_cases hzx : le z x = true
            · rw [insertSorted_cons, if_pos hzx] at hrec ⊢
              rw [isSortedB_cons2, Bool.and_eq_true]
              exact ⟨h.1, hrec⟩
            · rw [insertSorted_cons, if_neg hzx] at hrec ⊢
              rw [isSortedB_cons2, Bool.and_eq_true]
              exact ⟨hyx, hrec⟩
          · have hxy := (htot x y).resolve_right (by simpa using hyx)
            rw [insertSorted_cons, if_neg hyx, isSortedB_cons2, Bool.and_eq_true]
            refine ⟨hxy, ?_⟩
            rw [isSortedB_cons2, Bool.and_eq_true]
            exact h

theorem isSortedB_sortByB {α : Type} {le : α → α → Bool}
    (htot : ∀ a b, le a b = true ∨ le b a = true) (l : List α) :
    isSortedB le (sortByB le l) = true := by
  have hgen : ∀ (l acc : List α), isSortedB le acc = true →
      isSortedB le (l.foldl (fun acc x => insertSorted le x acc) acc) = true := by
    intro l
    induction l with
    | nil => intro acc h; simpa using h
    | cons x t ih =>
        intro acc h
        simp only [List.foldl_cons]
        exact ih _ (isSortedB_insertSorted htot x acc h)
  exact hgen l [] rfl

theorem isSortedB_take {α : Type} {le : α → α → Bool} :
    ∀ (l : List α) (n : Nat), isSortedB le l = true →
      isSortedB le (l.take n) = true := by
  intro l
  induction l with
  | nil => intro n _; simp [isSortedB]
  | cons x t ih =>
      intro n h
      cases n with
      | zero => rfl
      | succ m =>
          cases t with
          | nil => cases m <;> simp [isSortedB]
          | cons y t2 =>
              rw [isSortedB_cons2, Bool.and_eq_true] at h
              cases m with
              | zero => simp [List.take_succ_cons, isSortedB]
              | succ p =>
                  have hrec := ih (p + 1) h.2
                  rw [List.take_succ_cons] at hrec
                  rw [List.take_succ_cons, List.take_succ_cons,
                    isSortedB_cons2, Bool.and_eq_true]
                  exact ⟨h.1, hrec⟩

theorem removePub_length : ∀ {l : List TopicEntry} {u : Id} {l2 : List TopicEntry},
    removePub l u = some l2 → l.length = l2.length + 1 := by
  intro l
  induction l with
  | nil => intro u l2 h; cases h
  | cons e t ih =>
      intro u l2 h
      unfold removePub at h
      by_cases he : e.publisher = u
      · rw [if_pos he] at h
        cases h
        simp
      · rw [if_neg he] at h
        cases hr : removePub t u with
        | none => rw [hr] at h; cases h
        | some t2 =>
            rw [hr] at h
            simp only [Option.map_some'] at h
            cases h
            simp [ih hr]

theorem removePub_sublist : ∀ {l : List TopicEntry} {u : Id} {l2 : List TopicEntry},
    removePub l u = some l2 → l2.Sublist l := by
  intro l
  induction l with
  | nil => intro u l2 h; cases h
  | cons e t ih =>
      intro u l2 h
      unfold removePub at h
      by_cases he : e.publisher = u
      · rw [if_pos he] at h
        cases h
        exact List.sublist_cons_self e t
      · rw [if_neg he] at h
        cases hr : removePub t u with
        | none => rw [hr] at h; cases h
        | some t2 =>
            rw [hr] at h
            simp only [Option.map_some'] at h
            cases h
            exact List.Sublist.cons₂ e (ih hr)

theorem removePub_none_iff : ∀ {l : List TopicEntry} {u : Id},
    removePub l u = none ↔ ∀ e ∈ l, e.publisher ≠ u := by
  intro l
  induction l with
  | nil => intro u; simp [removePub]
  | cons e t ih =>
      intro u
      unfold removePub
      by_cases he : e.publisher = u
      · simp [he]
      · simp only [if_neg he, Option.map_eq_none']
        constructor
        · intro h x hx
          rcases List.mem_cons.mp hx with hx | hx
          · subst hx; exact he
          · exact (ih.mp h) x hx
        · intro h
          exact ih.mpr (fun x hx => h x (List.mem_cons_of_mem e hx))

theorem removePub_mem_u : ∀ {l : List TopicEntry} {u : Id} {l2 : List TopicEntry},
    removePub l u = some l2 → u ∈ l.map (fun e => e.publisher) := by
  intro l
  induction l with
  | nil => intro u l2 h; cases h
  | cons e t ih =>
      intro u l2 h
      unfold removePub at h
      by_cases he : e.publisher = u
      · simp [he]
      · rw [if_neg he] at h
        cases hr : removePub t u with
        | none => rw [hr] at h; cases h
        | some t2 => exact List.mem_cons_of_mem _ (ih hr)

theorem removePub_mem : ∀ {l : List TopicEntry} {u : Id} {l2 : List TopicEntry},
    removePub l u = some l2 → (l.map (fun e => e.publisher)).Nodup →
    ∀ q, (q ∈ l2.map (fun e => e.publisher) ↔
      (q ∈ l.map (fun e => e.publisher) ∧ q ≠ u)) := by
  intro l
  induction l with
  | nil => intro u l2 h; cases h
  | cons e t ih =>
      intro u l2 h hnd q
      have hnd1 : e.publisher ∉ t.map (fun e => e.publisher) ∧
          (t.map (fun e => e.publisher)).Nodup := by
        simpa [List.nodup_cons] using hnd
      unfold removePub at h
      by_cases he : e.publisher = u
      · rw [if_pos he] at h
        cases h
        subst he
        constructor
        · intro hq
          refine ⟨List.mem_cons_of_mem _ hq, ?_⟩
          intro hqu
          subst hqu
          exact hnd1.1 hq
        · intro ⟨hq, hqu⟩
          rcases List.mem_cons.mp hq with hq | hq
          · exact absurd hq hqu
          · exact hq
      · rw [if_neg he] at h
        cases hr : removePub t u with
        | none => rw [hr] at h; cases h
        | some t2 =>
            rw [hr] at h
            simp only [Option.map_some'] at h
            cases h
            have := ih hr hnd1.2 q
            simp only [List.map_cons, List.mem_cons] at *
            constructor
            · intro hq
              rcases hq with hq | hq
              · subst hq
                exact ⟨Or.inl rfl, he⟩
              · have := this.mp hq
                exact ⟨Or.inr this.1, this.2⟩
            · intro ⟨hq, hqu⟩
              rcases hq with hq | hq
              · exact Or.inl hq
              · exact Or.inr (this.mpr ⟨hq, hqu⟩)

theorem removePub_isSome_of_mem : ∀ {l : List TopicEntry} {u : Id},
    u ∈ l.map (fun e => e.publisher) → ∃ l2, removePub l u = some l2 := by
  intro l
  induction l with
  | nil => intro u h; cases h
  | cons e t ih =>
      intro u h
      unfold removePub
      by_cases he : e.publisher = u
      · exact ⟨t, by rw [if_pos he]⟩
      · have hu : u ∈ t.map (fun e => e.publisher) := by
          rcases List.mem_cons.mp h with h | h
          · exact absurd h.symm he
          · exact h
        obtain ⟨t2, ht2⟩ := ih hu
        exact ⟨e :: t2, by rw [if_neg he, ht2]; rfl⟩

theorem findTopic_cons (p : Id × List TopicEntry) (ts : List (Id × List TopicEntry))
    (t : Id) :
    findTopic (p :: ts) t = if p.1 = t then some p.2 else findTopic ts t := by
  unfold findTopic
  by_cases h : p.1 = t
  · rw [List.find?_cons_of_pos _ (by simpa using h), if_pos h]
    rfl
  · rw [List.find?_cons_of_neg _ (by simpa using h), if_neg h]

theorem findTopic_mem : ∀ {ts : List (Id × List TopicEntry)} {t : Id}
    {l : List TopicEntry}, findTopic ts t = some l → (t, l) ∈ ts := by
  intro ts
  induction ts with
  | nil => intro t l h; cases h
  | cons p rest ih =>
      intro t l h
      rw [findTopic_cons] at h
      by_cases hp : p.1 = t
      · rw [if_pos hp] at h
        cases h
        obtain ⟨p1, p2⟩ := p
        simp only at hp
        subst hp
        exact List.mem_cons_self _ _
      · rw [if_neg hp] at h
        exact List.mem_cons_of_mem _ (ih h)

theorem findTopic_none_iff : ∀ {ts : List (Id × List TopicEntry)} {t : Id},
    findTopic ts t = none ↔ ∀ pr ∈ ts, pr.1 ≠ t := by
  intro ts
  induction ts with
  | nil => intro t; simp [findTopic]
  | cons p rest ih =>
      intro t
      rw [findTopic_cons]
      by_cases hp : p.1 = t
      · simp [hp]
      · simp only [if_neg hp, ih]
        constructor
        · intro h x hx
          rcases List.mem_cons.mp hx with hx | hx
          · subst hx; exact hp
          · exact h x hx
        · intro h x hx
          exact h x (List.mem_cons_of_mem p hx)

theorem topicsSet_keys (ts : List (Id × List TopicEntry)) (k : Id)
    (v : List TopicEntry) : (topicsSet ts k v).map Prod.fst = ts.map Prod.fst := by
  induction ts with
  | nil => rfl
  | cons p rest ih =>
      unfold topicsSet at *
      by_cases hp : p.1 = k
      · simp [hp, ih]
      · simp [hp, ih]

theorem topicsSet_cons (p : Id × List TopicEntry)
    (ts : List (Id × List TopicEntry)) (k : Id) (v : List TopicEntry) :
    topicsSet (p :: ts) k v =
      (if p.1 = k then (k, v) else p) :: topicsSet ts k v := rfl

theorem eraseTopic_cons (p : Id × List TopicEntry)
    (ts : List (Id × List TopicEntry)) (k : Id) :
    eraseTopic (p :: ts) k =
      if p.1 = k then eraseTopic ts k else p :: eraseTopic ts k := by
  unfold eraseTopic
  by_cases hp : p.1 = k
  · rw [if_pos hp, List.filter_cons_of_neg (by simp [hp])]
  · rw [if_neg hp, List.filter_cons_of_pos (by simpa using hp)]

theorem findTopic_topicsSet_self : ∀ {ts : List (Id × List TopicEntry)} {k : Id}
    {l : List TopicEntry} (v : List TopicEntry), findTopic ts k = some l →
    findTopic (topicsSet ts k v) k = some v := by
  intro ts
  induction ts with
  | nil => intro k l v h; cases h
  | cons p rest ih =>
      intro k l v h
      rw [findTopic_cons] at h
      rw [topicsSet_cons]
      by_cases hp : p.1 = k
      · rw [if_pos hp, findTopic_cons]
        simp
      · rw [if_neg hp] at h
        rw [if_neg hp, findTopic_cons, if_neg hp]
        exact ih v h

theorem findTopic_topicsSet_ne {k : Id} (v : List TopicEntry) :
    ∀ (ts : List (Id × List TopicEntry)) (t : Id), t ≠ k →
    findTopic (topicsSet ts k v) t = findTopic ts t := by
  intro ts
  induction ts with
  | nil => intro t h; rfl
  | cons p rest ih =>
      intro t h
      rw [topicsSet_cons, findTopic_cons, findTopic_cons]
      by_cases hp : p.1 = k
      · rw [if_pos hp]
        have h1 : ((k, v) : Id × List TopicEntry).1 = t ↔ False := by
          simp
          exact fun hk => h hk.symm
        have h2 : p.1 = t ↔ False := by
          rw [hp]
          simp
          exact fun hk => h hk.symm
        rw [if_neg (by simpa using h1), if_neg (by simpa using h2)]
        exact ih t h
      · rw [if_neg hp]
        by_cases hpt : p.1 = t
        · rw [if_pos hpt, if_pos hpt]
        · rw [if_neg hpt, if_neg hpt]
          exact ih t h

theorem topicsSet_mem {ts : List (Id × List TopicEntry)} {k : Id}
    {v : List TopicEntry} :
    ∀ tp ∈ topicsSet ts k v, tp = (k, v) ∨ tp ∈ ts := by
  intro tp htp
  unfold topicsSet at htp
  rcases List.mem_map.mp htp with ⟨p, hp, hpe⟩
  by_cases hk : p.1 = k
  · rw [if_pos hk] at hpe
    exact Or.inl hpe.symm
  · rw [if_neg hk] at hpe
    exact Or.inr (hpe ▸ hp)

theorem sumLen_topicsSet : ∀ {ts : List (Id × List TopicEntry)} {k : Id}
    {l : List TopicEntry} (v : List TopicEntry),
    (ts.map Prod.fst).Nodup → findTopic ts k = some l →
    ((topicsSet ts k v).map (fun p => p.2.length)).sum + l.length =
      (ts.map (fun p => p.2.length)).sum + v.length := by
  intro ts
  induction ts with
  | nil => intro k l v _ h; cases h
  | cons p rest ih =>
      intro k l v hnd h
      have hnd1 : p.1 ∉ rest.map Prod.fst ∧ (rest.map Prod.fst).Nodup := by
        simpa [List.nodup_cons] using hnd
      rw [findTopic_cons] at h
      rw [topicsSet_cons]
      by_cases hp : p.1 = k
      · rw [if_pos hp] at h
        cases h
        have habs : topicsSet rest k v = rest := by
          unfold topicsSet
          have hq : ∀ q ∈ rest, q.1 ≠ k := by
            intro q hq hqk
            exact hnd1.1 (hp ▸ hqk ▸ List.mem_map_of_mem Prod.fst hq)
          calc rest.map (fun q => if q.1 = k then (k, v) else q)
              = rest.map (fun q => q) := by
                apply List.map_congr_left
                intro q hqm
                rw [if_neg (hq q hqm)]
            _ = rest := List.map_id rest
        rw [if_pos hp, habs]
        simp only [List.map_cons, List.sum_cons]
        omega
      · rw [if_neg hp] at h
        rw [if_neg hp]
        have := ih v hnd1.2 h
        simp only [List.map_cons, List.sum_cons]
        omega

theorem eraseTopic_sublist (ts : List (Id × List TopicEntry)) (k : Id) :
    (eraseTopic ts k).Sublist ts := List.filter_sublist ts

theorem findTopic_eraseTopic_self (ts : List (Id × List TopicEntry)) (k : Id) :
    findTopic (eraseTopic ts k) k = none := by
  rw [findTopic_none_iff]
  intro pr hpr
  have := List.of_mem_filter hpr
  simpa using this

theorem findTopic_eraseTopic_ne : ∀ (ts : List (Id × List TopicEntry)) (k t : Id),
    t ≠ k → findTopic (eraseTopic ts k) t = findTopic ts t := by
  intro ts
  induction ts with
  | nil => intro k t h; rfl
  | cons p rest ih =>
      intro k t h
      unfold eraseTopic
      by_cases hp : p.1 = k
      · rw [List.filter_cons_of_neg (by simp [hp])]
        rw [findTopic_cons, if_neg (by rw [hp]; exact fun hk => h hk.symm)]
        exact ih k t h
      · rw [List.filter_cons_of_pos (by simpa using hp)]
        rw [findTopic_cons, findTopic_cons]
        by_cases hpt : p.1 = t
        · rw [if_pos hpt, if_pos hpt]
        · rw [if_neg hpt, if_neg hpt]
          exact ih k t h

theorem sumLen_eraseTopic : ∀ {ts : List (Id × List TopicEntry)} {k : Id}
    {l : List TopicEntry}, (ts.map Prod.fst).Nodup → findTopic ts k = some l →
    ((eraseTopic ts k).map (fun p => p.2.length)).sum + l.length =
      (ts.map (fun p => p.2.length)).sum := by
  intro ts
  induction ts with
  | nil => intro k l _ h; cases h
  | cons p rest ih =>
      intro k l hnd h
      have hnd1 : p.1 ∉ rest.map Prod.fst ∧ (rest.map Prod.fst).Nodup := by
        simpa [List.nodup_cons] using hnd
      rw [findTopic_cons] at h
      rw [eraseTopic_cons]
      by_cases hp : p.1 = k
      · rw [if_pos hp] at h
        cases h
        have habs : eraseTopic rest k = rest := by
          unfold eraseTopic
          apply List.filter_eq_self.mpr
          intro q hq
          simp only [decide_eq_true_eq]
          intro hqk
          exact hnd1.1 (hp ▸ hqk ▸ List.mem_map_of_mem Prod.fst hq)
        rw [if_pos hp, habs]
        simp only [List.map_cons, List.sum_cons]
        omega
      · rw [if_neg hp] at h
        rw [if_neg hp]
        have := ih hnd1.2 h
        simp only [List.map_cons, List.sum_cons]
        omega

theorem eraseDeadline_mem {dl : List ((Id × Id) × Nat)} {k : Id × Id}
    (q : Id × Id) :
    q ∈ (eraseDeadline dl k).map Prod.fst ↔
      (q ∈ dl.map Prod.fst ∧ q ≠ k) := by
  unfold eraseDeadline
  constructor
  · intro h
    rcases List.mem_map.mp h with ⟨r, hr, hre⟩
    have h1 := List.mem_of_mem_filter hr
    have h2 := List.of_mem_filter hr
    subst hre
    exact ⟨List.mem_map_of_mem Prod.fst h1, by simpa using h2⟩
  · intro ⟨h1, h2⟩
    rcases List.mem_map.mp h1 with ⟨r, hr, hre⟩
    subst hre
    exact List.mem_map_of_mem Prod.fst
      (List.mem_filter.mpr ⟨hr, by simpa using h2⟩)

theorem eraseDeadline_sublist (dl : List ((Id × Id) × Nat)) (k : Id × Id) :
    (eraseDeadline dl k).Sublist dl := List.filter_sublist dl

theorem pushDeadline_absent {dl : List ((Id × Id) × Nat)} {k : Id × Id}
    (d : Nat) (h : k ∉ dl.map Prod.fst) : pushDeadline dl k d = dl ++ [(k, d)] := by
  unfold pushDeadline
  have hfalse : dl.any (fun r => decide (r.1 = k)) = false := by
    rw [List.any_eq_false]
    intro r hr
    simp only [decide_eq_true_eq]
    intro hrk
    exact h (hrk ▸ List.mem_map_of_mem Prod.fst hr)
  rw [hfalse]
  simp

theorem peekMaxDeadline_mem : ∀ {dl : List ((Id × Id) × Nat)}
    {r : (Id × Id) × Nat}, peekMaxDeadline dl = some r → r ∈ dl := by
  intro dl
  induction dl with
  | nil => intro r h; cases h
  | cons x rest ih =>
      intro r h
      unfold peekMaxDeadline at h
      cases hp : peekMaxDeadline rest with
      | none => rw [hp] at h; cases h; exact List.mem_cons_self _ _
      | some m =>
          rw [hp] at h
          by_cases hm : m.2 ≤ x.2
          · simp only [hm, if_true] at h
            cases h
            exact List.mem_cons_self _ _
          · simp only [hm, if_false] at h
            cases h
            exact List.mem_cons_of_mem _ (ih hp)

theorem filter_idem {α : Type} (p : α → Bool) :
    ∀ l : List α, (l.filter p).filter p = l.filter p := by
  intro l
  induction l with
  | nil => rfl
  | cons x t ih =>
      by_cases hx : p x = true
      · rw [List.filter_cons_of_pos hx, List.filter_cons_of_pos hx, ih]
      · rw [List.filter_cons_of_neg hx, ih]

theorem pubsAt_of_some {ts : List (Id × List TopicEntry)} {t : Id}
    {l : List TopicEntry} (h : findTopic ts t = some l) :
    pubsAt ts t = l.map (fun e => e.publisher) := by
  unfold pubsAt
  rw [h]

theorem pubsAt_of_none {ts : List (Id × List TopicEntry)} {t : Id}
    (h : findTopic ts t = none) : pubsAt ts t = [] := by
  unfold pubsAt
  rw [h]

theorem pubsOf_def (s : Storage) (t : Id) : s.pubsOf t = pubsAt s.topics t := rfl

theorem sumLen_member_le {ts : List (Id × List TopicEntry)} {t : Id}
    {l : List TopicEntry} (h : (t, l) ∈ ts) :
    l.length ≤ (ts.map (fun p => p.2.length)).sum := by
  have : l.length ∈ ts.map (fun p => p.2.length) := by
    exact List.mem_map_of_mem _ h
  exact List.single_le_sum (fun x _ => Nat.zero_le x) _ this

theorem storageInv_remove {s : Storage} (h : StorageInv s) (t u : Id) :
    StorageInv (s.remove t u) := by
  obtain ⟨hcount, hne, hpub, hknd, hdnd, hbij⟩ := h
  cases hg : s.get t with
  | none =>
      have hrem : s.remove t u = s := by
        simp only [Storage.remove, hg]
      rw [hrem]
      exact ⟨hcount, hne, hpub, hknd, hdnd, hbij⟩
  | some l =>
      cases hr : removePub l u with
      | none =>
          have hrem : s.remove t u = s := by
            simp only [Storage.remove, hg, hr]
          rw [hrem]
          exact ⟨hcount, hne, hpub, hknd, hdnd, hbij⟩
      | some l2 =>
          have hrem : s.remove t u =
              ⟨s.config, s.entry_count - 1,
               if l2.isEmpty then eraseTopic s.topics t
               else topicsSet s.topics t l2,
               eraseDeadline s.deadlines (t, u)⟩ := by
            simp only [Storage.remove, hg, hr]
          rw [hrem]
          have hfg : findTopic s.topics t = some l := hg
          have hmem : (t, l) ∈ s.topics := findTopic_mem hfg
          have hLlen : l.length = l2.length + 1 := removePub_length hr
          have hPl : pubsAt s.topics t = l.map (fun e => e.publisher) :=
            pubsAt_of_some hfg
          have hndl : (l.map (fun e => e.publisher)).Nodup := by
            have := hpub t
            rwa [pubsOf_def, hPl] at this
          have hrm := removePub_mem hr hndl
          have hLle : l.length ≤ (s.topics.map (fun p => p.2.length)).sum :=
            sumLen_member_le hmem
          have hsub2 : (l2.map (fun e => e.publisher)).Sublist
              (l.map (fun e => e.publisher)) :=
            (removePub_sublist hr).map _
          have hpt2 : pubsAt (if l2.isEmpty then eraseTopic s.topics t
              else topicsSet s.topics t l2) t = l2.map (fun e => e.publisher) := by
            by_cases hemp : l2.isEmpty
            · have hl2 : l2 = [] := List.isEmpty_iff.mp hemp
              rw [if_pos hemp,
                pubsAt_of_none (findTopic_eraseTopic_self s.topics t), hl2]
              rfl
            · rw [if_neg hemp, pubsAt_of_some (findTopic_topicsSet_self l2 hfg)]
          have hptne : ∀ t2, t2 ≠ t →
              pubsAt (if l2.isEmpty then eraseTopic s.topics t
                else topicsSet s.topics t l2) t2 = pubsAt s.topics t2 := by
            intro t2 ht2
            by_cases hemp : l2.isEmpty
            · rw [if_pos hemp]
              unfold pubsAt
              rw [findTopic_eraseTopic_ne s.topics t t2 ht2]
            · rw [if_neg hemp]
              unfold pubsAt
              rw [findTopic_topicsSet_ne l2 s.topics t2 ht2]
          refine ⟨?_, ?_, ?_, ?_, ?_, ?_⟩
          · show s.entry_count - 1 =
              ((if l2.isEmpty then eraseTopic s.topics t
                else topicsSet s.topics t l2).map (fun p => p.2.length)).sum
            by_cases hemp : l2.isEmpty
            · have hl2 : l2 = [] := List.isEmpty_iff.mp hemp
              have := sumLen_eraseTopic hknd hfg
              rw [if_pos hemp]
              subst hl2
              simp only [List.length_nil] at hLlen
              omega
            · have := sumLen_topicsSet l2 hknd hfg
              rw [if_neg hemp]
              omega
          · show ∀ tp ∈ (if l2.isEmpty then eraseTopic s.topics t
                else topicsSet s.topics t l2), tp.2 ≠ []
            intro tp htp
            by_cases hemp : l2.isEmpty
            · rw [if_pos hemp] at htp
              exact hne tp ((eraseTopic_sublist s.topics t).mem htp)
            · rw [if_neg hemp] at htp
              rcases topicsSet_mem tp htp with htp | htp
              · subst htp
                simpa [List.isEmpty_iff] using hemp
              · exact hne tp htp
          · intro t2
            show (pubsAt (if l2.isEmpty then eraseTopic s.topics t
                else topicsSet s.topics t l2) t2).Nodup
            by_cases ht2 : t2 = t
            · subst ht2
              rw [hpt2]
              exact hndl.sublist hsub2
            · rw [hptne t2 ht2]
              exact hpub t2
          · show ((if l2.isEmpty then eraseTopic s.topics t
                else topicsSet s.topics t l2).map Prod.fst).Nodup
            by_cases hemp : l2.isEmpty
            · rw [if_pos hemp]
              exact hknd.sublist ((eraseTopic_sublist s.topics t).map _)
            · rw [if_neg hemp]
              rw [topicsSet_keys]
              exact hknd
          · show ((eraseDeadline s.deadlines (t, u)).map Prod.fst).Nodup
            exact hdnd.sublist ((eraseDeadline_sublist s.deadlines (t, u)).map _)
          · intro t2 p2
            show (t2, p2) ∈ (eraseDeadline s.deadlines (t, u)).map Prod.fst ↔
              p2 ∈ pubsAt (if l2.isEmpty then eraseTopic s.topics t
                else topicsSet s.topics t l2) t2
            rw [eraseDeadline_mem]
            by_cases ht2 : t2 = t
            · subst ht2
              rw [hpt2, hrm p2]
              constructor
              · intro ⟨hin, hneq⟩
                have := (hbij t2 p2).mp hin
                rw [pubsOf_def, hPl] at this
                refine ⟨this, ?_⟩
                intro hpu
                exact hneq (by rw [hpu])
              · intro ⟨hin, hneq⟩
                have := (hbij t2 p2).mpr (by rw [pubsOf_def, hPl]; exact hin)
                refine ⟨this, ?_⟩
                intro hq
                cases hq
                exact hneq rfl
            · rw [hptne t2 ht2]
              constructor
              · intro ⟨hin, _⟩
                have := (hbij t2 p2).mp hin
                rwa [pubsOf_def] at this
              · intro hin
                refine ⟨(hbij t2 p2).mpr (by rw [pubsOf_def]; exact hin), ?_⟩
                intro hq
                injection hq with hq1 _
                exact ht2 hq1

theorem findTopic_append_self {ts : List (Id × List TopicEntry)} {t : Id}
    (h : findTopic ts t = none) (v : List TopicEntry) :
    findTopic (ts ++ [(t, v)]) t = some v := by
  induction ts with
  | nil => simp [findTopic]
  | cons q rest ih =>
      rw [findTopic_cons] at h
      by_cases hq : q.1 = t
      · rw [if_pos hq] at h; cases h
      · rw [if_neg hq] at h
        rw [List.cons_append, findTopic_cons, if_neg hq]
        exact ih h

theorem findTopic_append_ne {ts : List (Id × List TopicEntry)}
    {q : Id × List TopicEntry} {t2 : Id} (h : q.1 ≠ t2) :
    findTopic (ts ++ [q]) t2 = findTopic ts t2 := by
  induction ts with
  | nil => simp [findTopic, h]
  | cons r rest ih =>
      rw [List.cons_append, findTopic_cons, findTopic_cons]
      by_cases hr : r.1 = t2
      · rw [if_pos hr, if_pos hr]
      · rw [if_neg hr, if_neg hr]
        exact ih

theorem remove_pub_not_mem {s : Storage} (h : StorageInv s) (t u : Id) :
    u ∉ pubsAt (s.remove t u).topics t := by
  obtain ⟨hcount, hne, hpub, hknd, hdnd, hbij⟩ := h
  cases hg : s.get t with
  | none =>
      have hrem : s.remove t u = s := by
        simp only [Storage.remove, hg]
      rw [hrem, pubsAt_of_none hg]
      simp
  | some l =>
      cases hr : removePub l u with
      | none =>
          have hrem : s.remove t u = s := by
            simp only [Storage.remove, hg, hr]
          rw [hrem, pubsAt_of_some hg]
          intro hmem
          rcases List.mem_map.mp hmem with ⟨e, he, hee⟩
          exact removePub_none_iff.mp hr e he hee
      | some l2 =>
          have hrem : s.remove t u =
              ⟨s.config, s.entry_count - 1,
               if l2.isEmpty then eraseTopic s.topics t
               else topicsSet s.topics t l2,
               eraseDeadline s.deadlines (t, u)⟩ := by
            simp only [Storage.remove, hg, hr]
          have hfg : findTopic s.topics t = some l := hg
          have hndl : (l.map (fun e => e.publisher)).Nodup := by
            have := hpub t
            rwa [pubsOf_def, pubsAt_of_some hfg] at this
          rw [hrem]
          show u ∉ pubsAt (if l2.isEmpty then eraseTopic s.topics t
            else topicsSet s.topics t l2) t
          by_cases hemp : l2.isEmpty
          · rw [if_pos hemp, pubsAt_of_none (findTopic_eraseTopic_self s.topics t)]
            simp
          · rw [if_neg hemp, pubsAt_of_some (findTopic_topicsSet_self l2 hfg)]
            intro hmem
            exact ((removePub_mem hr hndl u).mp hmem).2 rfl

theorem storageInv_insert_aux {s1 : Storage} (hs1 : StorageInv s1) {t p : Id}
    (topics2 : List (Id × List TopicEntry)) (deadline : Nat)
    (hnp : p ∉ pubsAt s1.topics t)
    (F1 : pubsAt topics2 t = pubsAt s1.topics t ++ [p])
    (F2 : ∀ t2, t2 ≠ t → pubsAt topics2 t2 = pubsAt s1.topics t2)
    (F3 : (topics2.map (fun q => q.2.length)).sum =
          (s1.topics.map (fun q => q.2.length)).sum + 1)
    (F4 : (topics2.map Prod.fst).Nodup)
    (F5 : ∀ tp ∈ topics2, tp.2 ≠ []) :
    StorageInv ⟨s1.config, s1.entry_count + 1, topics2,
      pushDeadline s1.deadlines (t, p) deadline⟩ := by
  obtain ⟨h1count, h1ne, h1pub, h1knd, h1dnd, h1bij⟩ := hs1
  have hkey : (t, p) ∉ s1.deadlines.map Prod.fst := by
    intro hk
    exact hnp ((h1bij t p).mp hk)
  have hpush : pushDeadline s1.deadlines (t, p) deadline =
      s1.deadlines ++ [((t, p), deadline)] := pushDeadline_absent deadline hkey
  refine ⟨?_, F5, ?_, F4, ?_, ?_⟩
  · show s1.entry_count + 1 = _
    rw [F3]
    omega
  · intro t2
    show (pubsAt topics2 t2).Nodup
    by_cases ht2 : t2 = t
    · subst ht2
      rw [F1]
      rw [List.nodup_append]
      refine ⟨h1pub t2, List.nodup_singleton p, ?_⟩
      intro a ha hpa
      rw [List.mem_singleton] at hpa
      subst hpa
      exact hnp ha
    · rw [F2 t2 ht2]
      exact h1pub t2
  · show ((pushDeadline s1.deadlines (t, p) deadline).map Prod.fst).Nodup
    rw [hpush, List.map_append]
    rw [List.nodup_append]
    refine ⟨h1dnd, by simp, ?_⟩
    intro a ha hpa
    simp only [List.map_cons, List.map_nil, List.mem_singleton] at hpa
    subst hpa
    exact hkey ha
  · intro t2 p2
    show (t2, p2) ∈ (pushDeadline s1.deadlines (t, p) deadline).map Prod.fst ↔
      p2 ∈ pubsAt topics2 t2
    rw [hpush, List.map_append]
    simp only [List.map_cons, List.map_nil, List.mem_append, List.mem_singleton]
    by_cases ht2 : t2 = t
    · subst ht2
      rw [F1, List.mem_append, List.mem_singleton]
      constructor
      · intro hin
        rcases hin with hin | hin
        · exact Or.inl ((h1bij t2 p2).mp hin)
        · injection hin with h1 h2
          exact Or.inr h2
      · intro hin
        rcases hin with hin | hin
        · exact Or.inl ((h1bij t2 p2).mpr hin)
        · subst hin
          exact Or.inr rfl
    · rw [F2 t2 ht2]
      constructor
      · intro hin
        rcases hin with hin | hin
        · exact (h1bij t2 p2).mp hin
        · injection hin with h1 h2
          exact absurd h1 ht2
      · intro hin
        exact Or.inl ((h1bij t2 p2).mpr hin)

theorem storageInv_insert {s : Storage} (h : StorageInv s) (now imax : Nat)
    (t p : Id) (lt : Nat) (d : List Nat) :
    StorageInv (s.insert now imax t p lt d).1 := by
  cases hc : Storage.check_entry s.config lt d with
  | some e =>
      have heq : (s.insert now imax t p lt d).1 = s := by
        simp only [Storage.insert, hc]
      rw [heq]
      exact h
  | none =>
      have hs1 : StorageInv (s.remove t p) := storageInv_remove h t p
      have hnp : p ∉ pubsAt (s.remove t p).topics t := remove_pub_not_mem h t p
      by_cases hmax : (s.remove t p).config.max_entries ≤ (s.remove t p).entry_count
      · have heq : (s.insert now imax t p lt d).1 = s.remove t p := by
          simp only [Storage.insert, hc]
          rw [if_pos hmax]
        rw [heq]
        exact hs1
      · cases had : checkedAdd now lt imax with
        | none =>
            have heq : (s.insert now imax t p lt d).1 = s.remove t p := by
              simp only [Storage.insert, hc]
              rw [if_neg hmax, had]
            rw [heq]
            exact hs1
        | some deadline =>
            obtain ⟨h1count, h1ne, h1pub, h1knd, h1dnd, h1bij⟩ := hs1
            cases hg1 : (s.remove t p).get t with
            | some l =>
                have heq : (s.insert now imax t p lt d).1 =
                    ⟨(s.remove t p).config, (s.remove t p).entry_count + 1,
                     topicsSet (s.remove t p).topics t (l ++ [⟨p, d⟩]),
                     pushDeadline (s.remove t p).deadlines (t, p) deadline⟩ := by
                  simp only [Storage.insert, hc]
                  rw [if_neg hmax, had, hg1]
                rw [heq]
                have hfg1 : findTopic (s.remove t p).topics t = some l := hg1
                refine storageInv_insert_aux
                  ⟨h1count, h1ne, h1pub, h1knd, h1dnd, h1bij⟩ _ _ hnp ?_ ?_ ?_ ?_ ?_
                · rw [pubsAt_of_some (findTopic_topicsSet_self _ hfg1),
                    pubsAt_of_some hfg1]
                  simp
                · intro t2 ht2
                  unfold pubsAt
                  rw [findTopic_topicsSet_ne _ _ _ ht2]
                · have := sumLen_topicsSet (l ++ [(⟨p, d⟩ : TopicEntry)]) h1knd hfg1
                  simp only [List.length_append, List.length_cons,
                    List.length_nil] at this
                  omega
                · rw [topicsSet_keys]
                  exact h1knd
                · intro tp htp
                  rcases topicsSet_mem tp htp with htp | htp
                  · subst htp
                    simp
                  · exact h1ne tp htp
            | none =>
                have heq : (s.insert now imax t p lt d).1 =
                    ⟨(s.remove t p).config, (s.remove t p).entry_count + 1,
                     (s.remove t p).topics ++ [(t, [⟨p, d⟩])],
                     pushDeadline (s.remove t p).deadlines (t, p) deadline⟩ := by
                  simp only [Storage.insert, hc]
                  rw [if_neg hmax, had, hg1]
                rw [heq]
                have hfg1 : findTopic (s.remove t p).topics t = none := hg1
                have htk : t ∉ (s.remove t p).topics.map Prod.fst := by
                  intro hk
                  rcases List.mem_map.mp hk with ⟨q, hq, hqe⟩
                  exact findTopic_none_iff.mp hfg1 q hq hqe
                refine storageInv_insert_aux
                  ⟨h1count, h1ne, h1pub, h1knd, h1dnd, h1bij⟩ _ _ hnp ?_ ?_ ?_ ?_ ?_
                · rw [pubsAt_of_some (findTopic_append_self hfg1 _),
                    pubsAt_of_none hfg1]
                  simp
                · intro t2 ht2
                  unfold pubsAt
                  rw [findTopic_append_ne (by simpa using fun he => ht2 he.symm)]
                · simp
                · rw [List.map_append]
                  rw [List.nodup_append]
                  refine ⟨h1knd, by simp, ?_⟩
                  intro a ha hpa
                  simp only [List.map_cons, List.map_nil, List.mem_singleton] at hpa
                  subst hpa
                  exact htk ha
                · intro tp htp
                  rcases List.mem_append.mp htp with htp | htp
                  · exact h1ne tp htp
                  · rw [List.mem_singleton] at htp
                    subst htp
                    simp

theorem remove_erase_eq {s : Storage} {k : Id × Id} {l l2 : List TopicEntry}
    (hg : s.get k.1 = some l) (hr : removePub l k.2 = some l2) :
    Storage.remove { s with deadlines := eraseDeadline s.deadlines k } k.1 k.2 =
      s.remove k.1 k.2 := by
  obtain ⟨k1, k2⟩ := k
  have hg2 : ({ s with deadlines := eraseDeadline s.deadlines (k1, k2) } :
      Storage).get k1 = some l := hg
  simp only [Storage.remove, hg, hg2, hr]
  have : eraseDeadline (eraseDeadline s.deadlines (k1, k2)) (k1, k2) =
      eraseDeadline s.deadlines (k1, k2) := by
    unfold eraseDeadline
    exact filter_idem _ _
  rw [this]

theorem storageInv_periodicGo : ∀ (fuel : Nat) {s : Storage},
    StorageInv s → ∀ (now : Nat), StorageInv (periodicGo fuel s now) := by
  intro fuel
  induction fuel with
  | zero => intro s h now; exact h
  | succ f ih =>
      intro s h now
      cases hp : peekMaxDeadline s.deadlines with
      | none =>
          have heq : periodicGo (f + 1) s now = s := by
            unfold periodicGo
            rw [hp]
          rw [heq]
          exact h
      | some r =>
          by_cases hnow : now < r.2
          · have heq : periodicGo (f + 1) s now = s := by
              unfold periodicGo
              rw [hp]
              simp [hnow]
            rw [heq]
            exact h
          · have heq : periodicGo (f + 1) s now =
                periodicGo f (Storage.remove
                  { s with deadlines := eraseDeadline s.deadlines r.1 }
                  r.1.1 r.1.2) now := by
              conv_lhs => rw [periodicGo]
              rw [hp]
              simp only [hnow, if_false]
            rw [heq]
            have hmem : r ∈ s.deadlines := peekMaxDeadline_mem hp
            have hkey : r.1 ∈ s.deadlines.map Prod.fst :=
              List.mem_map_of_mem Prod.fst hmem
            have hkey2 : (r.1.1, r.1.2) ∈ s.deadlines.map Prod.fst := by
              simpa using hkey
            obtain ⟨hcount, hne, hpub, hknd, hdnd, hbij⟩ := h
            have hpub2 : r.1.2 ∈ s.pubsOf r.1.1 := (hbij r.1.1 r.1.2).mp hkey2
            rw [pubsOf_def] at hpub2
            cases hgg : s.get r.1.1 with
            | none =>
                rw [pubsAt_of_none hgg] at hpub2
                cases hpub2
            | some l =>
                rw [pubsAt_of_some hgg] at hpub2
                obtain ⟨l2, hr2⟩ := removePub_isSome_of_mem hpub2
                rw [remove_erase_eq hgg hr2]
                exact ih (storageInv_remove
                  ⟨hcount, hne, hpub, hknd, hdnd, hbij⟩ r.1.1 r.1.2) now

theorem storageInv_periodic {s : Storage} (h : StorageInv s) (now : Nat) :
    StorageInv (s.periodic_run now) := storageInv_periodicGo _ h now

theorem storageInv_applyOp {s : Storage} (h : StorageInv s) (op : StorageOp) :
    StorageInv (applyOp s op) := by
  cases op with
  | ins now imax t p lt d => exact storageInv_insert h now imax t p lt d
  | rem t u => exact storageInv_remove h t u
  | run now => exact storageInv_periodic h now

theorem storageInv_new (cfg : StorageConfig) : StorageInv (Storage.new cfg) := by
  refine ⟨rfl, ?_, ?_, ?_, ?_, ?_⟩ <;>
    simp [Storage.new, pubsOf_def, pubsAt, findTopic]

theorem u64mod_eq : U64MOD = 18446744073709551616 := by norm_num [U64MOD]

theorem wSub1_eq {x : Nat} (h1 : 0 < x) (h2 : x < U64MOD) : wSub1 x = x - 1 := by
  rw [u64mod_eq] at h2
  unfold wSub1
  rw [u64mod_eq]
  omega

theorem onDisconnect_count (s : ConnState) (p : Id) (u w : Bool) :
    (onDisconnect s p u w).connection_count =
      if u then wSub1 s.connection_count else s.connection_count := by
  unfold onDisconnect
  cases u <;> cases w <;> simp

theorem onHalfClosed_count (s : ConnState) (i : Id) :
    (onHalfClosed s i).connection_count = s.connection_count := rfl

theorem alloc_cases (N : Nat) (s : ConnState) :
    ((allocConnection (some N) s).2 = false →
      (allocConnection (some N) s).1.connection_count = s.connection_count) ∧
    ((allocConnection (some N) s).2 = true → N ≤ s.connection_count →
      (allocConnection (some N) s).1.connection_count = s.connection_count) ∧
    ((allocConnection (some N) s).1.connection_count = s.connection_count ∨
     ((allocConnection (some N) s).1.connection_count = s.connection_count + 1 ∧
       s.connection_count < N)) := by
  by_cases hs : s.is_shutting_down = true
  · have hv : allocConnection (some N) s = (s, false) := by
      unfold allocConnection; simp [hs]
    rw [hv]
    exact ⟨fun _ => rfl, fun h => absurd h (by simp), Or.inl rfl⟩
  by_cases hlt : s.connection_count < N
  · have hv : allocConnection (some N) s =
        ({ s with connection_count := s.connection_count + 1 }, true) := by
      unfold allocConnection; simp [hs, hlt]
    rw [hv]
    exact ⟨fun h => absurd h (by simp), fun _ hge => by omega, Or.inr ⟨rfl, hlt⟩⟩
  by_cases hh : 0 < s.half_closed_count
  · cases hq : s.half_closed_connections with
    | nil =>
        have hv : allocConnection (some N) s =
            ({ s with half_closed_count := s.half_closed_count - 1 }, false) := by
          unfold allocConnection; simp [hs, hlt, hh, hq]
        rw [hv]
        exact ⟨fun _ => rfl, fun h => absurd h (by simp), Or.inl rfl⟩
    | cons id rest =>
        by_cases hc : (s.connections.any (fun x => decide (x = id))) = true
        · have hv : (allocConnection (some N) s).1.connection_count =
              s.connection_count ∧ (allocConnection (some N) s).2 = true := by
            unfold allocConnection
            simp [hs, hlt, hh, hq, hc, onDisconnect_count]
          exact ⟨fun h => by rw [hv.2] at h; exact absurd h (by simp),
                 fun _ _ => hv.1, Or.inl hv.1⟩
        · have hv : (allocConnection (some N) s).1.connection_count =
              s.connection_count ∧ (allocConnection (some N) s).2 = true := by
            unfold allocConnection
            simp [hs, hlt, hh, hq, hc]
          exact ⟨fun h => by rw [hv.2] at h; exact absurd h (by simp),
                 fun _ _ => hv.1, Or.inl hv.1⟩
  · have hv : allocConnection (some N) s = (s, false) := by
      unfold allocConnection; simp [hs, hlt, hh]
    rw [hv]
    exact ⟨fun _ => rfl, fun h => absurd h (by simp), Or.inl rfl⟩

theorem reach_count_le {N : Nat} (hN : N < U64MOD) :
    ∀ s, ReachC (some N) s → s.connection_count ≤ N := by
  intro s h
  induction h with
  | init => simp [initConn]
  | @alloc s1 h ih =>
      rcases (alloc_cases N s1).2.2 with h1 | ⟨h1, h2⟩ <;> omega
  | @halfClosed s1 i h ih => simpa [onHalfClosed_count] using ih
  | @disc s1 p u w h hu ih =>
      rw [onDisconnect_count]
      cases u with
      | false => simpa using ih
      | true =>
          have h0 : 0 < s1.connection_count := hu rfl
          rw [if_pos rfl, wSub1_eq h0 (by omega)]
          omega

theorem drop_length_sub {α : Type} (l : List α) (n : Nat) :
    l.drop (l.length - n) = (l.reverse.take n).reverse := by
  rw [← List.rtake_eq_reverse_take_reverse]
  rfl

/-! Claim theorems. -/

/-- C1: evaluating KTree::get_closer_n at a concrete failing input.
With self id 0x00..00, the table holding 0x40..00 (tree entry 1) and
0x20..00 (tree entry 2), and target 0x80..00, the code stops the right
walk at entry 1 and returns the id 0x40..00, while the stored id
0x20..00 is strictly closer to the target (xor 0xA0.. against 0xC0..),
so the n ids minimising the xor distance are not returned. -/
theorem claim_C1_code_eval :
    (((KTree.new (List.replicate 20 0) ⟨2, 1, 1, none⟩).insert
        (64 :: List.replicate 19 0)).1.insert
        (32 :: List.replicate 19 0)).1.get_closer_n
      (128 :: List.replicate 19 0) 1 = [64 :: List.replicate 19 0] ∧
    closestSpecN (((KTree.new (List.replicate 20 0) ⟨2, 1, 1, none⟩).insert
        (64 :: List.replicate 19 0)).1.insert
        (32 :: List.replicate 19 0)).1
      (128 :: List.replicate 19 0) 1 = [32 :: List.replicate 19 0] ∧
    (64 :: List.replicate 19 0 : Id) ≠ 32 :: List.replicate 19 0 := by
  refine ⟨by decide, by decide, by decide⟩

/-- C2: the claim says create_left_mask(8) sets the top 8 bits (byte 0 =
0xFF).  Evaluating the code at n = 8 shows it sets the LOW 8 bits
instead: byte 19 = 0xFF and every other byte 0, so the value is 255 and
not 255 * 2 ^ 152. -/
theorem claim_C2_code_eval :
    create_left_mask 8 = List.replicate 19 0 ++ [255] ∧
    idToNat (create_left_mask 8) = 255 ∧
    idToNat (create_left_mask 8) ≠ 255 * 2 ^ 152 := by decide

/-- C3: evaluating KBucket::refresh_node at a concrete failing input.
For entries [a, b, c] with a = 0x01.., b = 0x02.., c = 0x03..,
refresh(a) reports found but produces [c, a, b]: the suffix rotated
right moves the LAST entry to the found position, not the found entry to
the back, so the claimed result [b, c, a] is not produced. -/
theorem claim_C3_code_eval :
    KBucket.refresh_node
        ⟨[1 :: List.replicate 19 0, 2 :: List.replicate 19 0,
          3 :: List.replicate 19 0], []⟩ (1 :: List.replicate 19 0) =
      (⟨[3 :: List.replicate 19 0, 1 :: List.replicate 19 0,
         2 :: List.replicate 19 0], []⟩, true) ∧
    ([3 :: List.replicate 19 0, 1 :: List.replicate 19 0,
      2 :: List.replicate 19 0] : List Id) ≠
      [2 :: List.replicate 19 0, 3 :: List.replicate 19 0,
       1 :: List.replicate 19 0] := by
  refine ⟨by decide, by decide⟩

/-- C10: inserting an id that the bucket already holds (in entries or in
the replacement cache) returns false and leaves the bucket unchanged
with no pings, the same result as a full bucket; the tree insert and
on_connect behave accordingly, so an already-routed peer is reported as
not adopted. -/
theorem claim_C10 :
    (∀ (b : KBucket) (id : Id) (cfg : RoutingConfig),
        b.has id = true → b.insert id cfg = (b, false, [])) ∧
    (∀ (b : KBucket) (id : Id) (cfg : RoutingConfig),
        b.has id = false → cfg.bucket_size ≤ b.entries.length →
        cfg.bucket_replacement_size ≤ b.replacement_cache.length →
        b.insert id cfg = (b, false, [])) ∧
    (∀ (t : KTree) (id : Id), t.has id = true → t.insert id = (t, false, [])) ∧
    (∀ (s : DhtState) (id : Id), s.tree.has id = true →
        on_connect s id = (s, false)) := by
  refine ⟨fun b id cfg h => kbucket_insert_has h,
          fun b id cfg h h1 h2 => ?_,
          fun t id h => ktree_insert_has h,
          fun s id h => ?_⟩
  · simp [KBucket.insert, h, Nat.not_lt.mpr h1, Nat.not_lt.mpr h2]
  · simp only [on_connect, ktree_insert_has h]

/-- C10 witness: the theorem applied at a bucket holding 0x01.. (in its
entries), at a full bucket, at a tree holding 0x40.., and at a DHT state
with that tree. -/
theorem claim_C10_witness :
    KBucket.insert ⟨[1 :: List.replicate 19 0], []⟩ (1 :: List.replicate 19 0)
        ⟨2, 1, 1, none⟩ = (⟨[1 :: List.replicate 19 0], []⟩, false, []) ∧
    KBucket.insert ⟨[1 :: List.replicate 19 0], [2 :: List.replicate 19 0]⟩
        (3 :: List.replicate 19 0) ⟨1, 1, 1, none⟩ =
      (⟨[1 :: List.replicate 19 0], [2 :: List.replicate 19 0]⟩, false, []) ∧
    KTree.insert (((KTree.new (List.replicate 20 0) ⟨2, 1, 1, none⟩).insert
        (64 :: List.replicate 19 0)).1) (64 :: List.replicate 19 0) =
      ((((KTree.new (List.replicate 20 0) ⟨2, 1, 1, none⟩).insert
        (64 :: List.replicate 19 0)).1), false, []) ∧
    on_connect ⟨⟨2, 1, 1, none⟩, List.replicate 20 0,
        (((KTree.new (List.replicate 20 0) ⟨2, 1, 1, none⟩).insert
          (64 :: List.replicate 19 0)).1), Storage.new ⟨10, 10, 10⟩⟩
        (64 :: List.replicate 19 0) =
      (⟨⟨2, 1, 1, none⟩, List.replicate 20 0,
        (((KTree.new (List.replicate 20 0) ⟨2, 1, 1, none⟩).insert
          (64 :: List.replicate 19 0)).1), Storage.new ⟨10, 10, 10⟩⟩, false) :=
  ⟨claim_C10.1 _ _ _ (by decide), claim_C10.2.1 _ _ _ (by decide) (by decide) (by decide),
   claim_C10.2.2.1 _ _ (by decide), claim_C10.2.2.2 _ _ (by decide)⟩

/-- C5 counterexample: with max_connections = 2, the single-step
sequence consisting of one on_disconnect with update_conn_count = true
taken in the initial state wraps the atomic u64 counter from 0 to
2^64 - 1, which exceeds N = 2, so the claim does not hold of every
sequence of alloc_connection / on_disconnect / on_half_closed steps. -/
theorem claim_C5_counterexample :
    ¬ (([ConnStep.disc [1] true false].foldl (applyConnStep (some 2))
        initConn).connection_count ≤ 2) := by decide

/-- C5 amended: under the program's discipline that on_disconnect with
update_conn_count = true is only invoked while the connection count is
positive (it runs once per registered connection), every reachable state
keeps connection_count at most N; a denied alloc_connection leaves
connection_count unchanged, and an alloc_connection that admits while
the count is already at the limit (the half-closed eviction path) also
leaves connection_count unchanged. -/
theorem claim_C5_amended (N : Nat) (hN : N < U64MOD) :
    (∀ s, ReachC (some N) s → s.connection_count ≤ N) ∧
    (∀ s, (allocConnection (some N) s).2 = false →
      (allocConnection (some N) s).1.connection_count = s.connection_count) ∧
    (∀ s, (allocConnection (some N) s).2 = true → N ≤ s.connection_count →
      (allocConnection (some N) s).1.connection_count = s.connection_count) :=
  ⟨reach_count_le hN,
   fun s => (alloc_cases N s).1,
   fun s => (alloc_cases N s).2.1⟩

/-- C5 witness: the amended theorem applied with N = 2 at the initial
state, at a denied allocation (count at the limit, no half-closed
connection) and at an admission through half-closed eviction. -/
theorem claim_C5_witness :
    initConn.connection_count ≤ 2 ∧
    ((allocConnection (some 2) ⟨false, 2, 2, [[1], [2]], [], 0⟩).2 = false →
      (allocConnection (some 2)
        ⟨false, 2, 2, [[1], [2]], [], 0⟩).1.connection_count = 2) ∧
    ((allocConnection (some 2) ⟨false, 2, 2, [[1], [2]], [[1]], 1⟩).2 = true →
      2 ≤ (2 : Nat) →
      (allocConnection (some 2)
        ⟨false, 2, 2, [[1], [2]], [[1]], 1⟩).1.connection_count = 2) :=
  ⟨(claim_C5_amended 2 (by rw [u64mod_eq]; omega)).1 initConn ReachC.init,
   fun h => (claim_C5_amended 2 (by rw [u64mod_eq]; omega)).2.1
     ⟨false, 2, 2, [[1], [2]], [], 0⟩ h,
   fun h h2 => (claim_C5_amended 2 (by rw [u64mod_eq]; omega)).2.2
     ⟨false, 2, 2, [[1], [2]], [[1]], 1⟩ h h2⟩

/-- C6: a FindData(t, limit) request is answered with FoundData holding
exactly the last limit stored entries of t in insertion order (all of
them when fewer are stored) when the storage has the topic, and with
FoundNodes holding the closer-n result minus the sender otherwise. -/
theorem claim_C6 (s : DhtState) (now imax : Nat) (sender topic : Id)
    (limit : Nat) :
    (on_request s now imax sender (.FindData topic limit)).2 =
      match s.storage.get topic with
      | some entries => .FoundData ((entries.reverse.take limit).reverse)
      | none =>
          .FoundNodes (((s.tree.refresh sender).1.get_closer_n topic
            s.configRouting.bucket_size).filter (fun x => decide (x ≠ sender))) := by
  unfold on_request
  cases h : s.storage.get topic with
  | none => simp [h]
  | some entries => simp [h, drop_length_sub]

/-- C4 counterexample: with max_lifetime 100, an insert of lifetime 100
at now = 10 against an instant horizon of 50 returns InvalidLifetime
through the overflow check, yet the pre-existing (topic, publisher)
entry has been removed, so the storage state did change. -/
theorem claim_C4_counterexample :
    (Storage.insert ⟨⟨10, 100, 5⟩, 1, [([1], [⟨[2], [9]⟩])], [(([1], [2]), 50)]⟩
        10 50 [1] [2] 100 [3]).2 = some .InvalidLifetime ∧
    (Storage.insert ⟨⟨10, 100, 5⟩, 1, [([1], [⟨[2], [9]⟩])], [(([1], [2]), 50)]⟩
        10 50 [1] [2] 100 [3]).1.get [1] = none ∧
    (Storage.insert ⟨⟨10, 100, 5⟩, 1, [([1], [⟨[2], [9]⟩])], [(([1], [2]), 50)]⟩
        10 50 [1] [2] 100 [3]).1 ≠
      ⟨⟨10, 100, 5⟩, 1, [([1], [⟨[2], [9]⟩])], [(([1], [2]), 50)]⟩ := by
  refine ⟨by decide, by decide, by decide⟩

/-- C4 amended: the InvalidData rejection and the InvalidLifetime
rejection caused by lifetime exceeding max_lifetime happen before step 2
and leave the storage unchanged; the InvalidLifetime rejection caused by
instant overflow is evaluated only after step 2 (and after the
TooManyEntries check), so it can return with the pre-existing
(topic, publisher) entry already removed. -/
theorem claim_C4_amended (s : Storage) (now imax : Nat) (topic publisher : Id)
    (lifetime : Nat) (data : List Nat) :
    (s.config.max_size < data.length →
      s.insert now imax topic publisher lifetime data = (s, some .InvalidData)) ∧
    (data.length ≤ s.config.max_size → s.config.max_lifetime < lifetime →
      s.insert now imax topic publisher lifetime data =
        (s, some .InvalidLifetime)) := by
  constructor
  · intro h
    simp [Storage.insert, Storage.check_entry, h]
  · intro h1 h2
    simp [Storage.insert, Storage.check_entry, Nat.not_lt.mpr h1, h2]

/-- C4 witness: the amended theorem applied at an oversized data value
and at an over-long lifetime. -/
theorem claim_C4_witness :
    (Storage.insert (Storage.new ⟨2, 100, 5⟩) 0 1000 [1] [2] 1 [7, 7, 7] =
      (Storage.new ⟨2, 100, 5⟩, some .InvalidData)) ∧
    (Storage.insert (Storage.new ⟨2, 100, 5⟩) 0 1000 [1] [2] 101 [7] =
      (Storage.new ⟨2, 100, 5⟩, some .InvalidLifetime)) :=
  ⟨(claim_C4_amended _ _ _ _ _ _ _).1 (by decide),
   (claim_C4_amended _ _ _ _ _ _ _).2 (by decide) (by decide)⟩

/-- C7: after every sequence of storage operations (insert, remove,
periodic_run, from a fresh store), the storage invariant holds:
entry_count is the sum of the topic list lengths, no topic maps to an
empty list, publishers are unique per topic, and a (topic, publisher)
pair is in the deadline heap exactly once if and only if it is in the
map (the heap and map keys carry no duplicates). -/
theorem claim_C7 (cfg : StorageConfig) (ops : List StorageOp) :
    StorageInv (ops.foldl applyOp (Storage.new cfg)) := by
  have hgen : ∀ (ops : List StorageOp) (s : Storage), StorageInv s →
      StorageInv (ops.foldl applyOp s) := by
    intro ops
    induction ops with
    | nil => intro s h; exact h
    | cons op rest ih =>
        intro s h
        exact ih _ (storageInv_applyOp h op)
  exact hgen ops _ (storageInv_new cfg)

/-- C8 counterexample: seeding the window with four contacts (the
bucket-size default k = 4) plus the marker entry for self yields five
entries, exceeding k, because the source never truncates the freshly
seeded window; and the window is not ascending by the xor distance
itself, because the stable sort only orders by the leading-zeros class
(here every xor distance has class 0, so the seed order 0xB0.., 0xA0..,
0xC0.., 0x90.., 0x80.. survives). -/
theorem claim_C8_counterexample :
    (seedWindow (128 :: List.replicate 19 0) (List.replicate 20 0)
        [48 :: List.replicate 19 0, 32 :: List.replicate 19 0,
         64 :: List.replicate 19 0, 16 :: List.replicate 19 0]).length = 5 ∧
    ascByDist (128 :: List.replicate 19 0)
      (seedWindow (128 :: List.replicate 19 0) (List.replicate 20 0)
        [48 :: List.replicate 19 0, 32 :: List.replicate 19 0,
         64 :: List.replicate 19 0, 16 :: List.replicate 19 0]) = false := by
  refine ⟨by decide, by decide⟩

/-- C8 amended: after seeding, the window holds the seeded contacts plus
the marker entry for self (k + 1 entries when k were seeded) sorted by
descending leading-zeros of the xor with the target (ascending distance
class, ties in insertion order); after every FoundNodes mutation the
window is re-sorted by that same relation and truncated to at most k
entries. -/
theorem claim_C8_amended (target selfId : Id) (firstBucket : List Id)
    (k : Nat) (window : List (QueryState × Id)) (queried : List Id)
    (nodes : List Id) :
    (seedWindow target selfId firstBucket).length = firstBucket.length + 1 ∧
    isSortedB (descLe target) (seedWindow target selfId firstBucket) = true ∧
    (processFoundNodes k target window queried nodes).1.length ≤ k ∧
    isSortedB (descLe target)
      (processFoundNodes k target window queried nodes).1 = true := by
  have htot : ∀ a b, descLe target a b = true ∨ descLe target b a = true := by
    intro a b
    unfold descLe
    rcases Nat.le_total (searchKey target b.2) (searchKey target a.2) with h | h
    · left; simpa using h
    · right; simpa using h
  refine ⟨?_, ?_, ?_, ?_⟩
  · unfold seedWindow sort_bucket
    rw [sortByB_length]
    simp
  · exact isSortedB_sortByB htot _
  · unfold processFoundNodes
    simp [List.length_take]
  · unfold processFoundNodes
    exact isSortedB_take _ _ (isSortedB_sortByB htot _)

/-- C9 counterexample: for the distances a = 0x00..02 and b = 0x00..03
the leading-zero counts are equal while a is strictly smaller as a
big-endian integer, so the claimed equivalence (clz a > clz b iff a < b)
is false at this input. -/
theorem claim_C9_counterexample :
    ¬ (leadZeros (List.replicate 19 0 ++ [3]) < leadZeros (List.replicate 19 0 ++ [2]) ↔
       idToNat (List.replicate 19 0 ++ [2]) < idToNat (List.replicate 19 0 ++ [3])) := by
  decide

/-- C9 amended: for 20-byte identifiers, a strictly greater leading-zero
count does imply a strictly smaller big-endian value, and a strictly
smaller big-endian value implies an at-least-as-great leading-zero
count; the two orderings agree up to ties in the leading-zero class. -/
theorem claim_C9_amended (a b : Id) (ha : IsId a) (hb : IsId b) :
    (leadZeros b < leadZeros a → idToNat a < idToNat b) ∧
    (idToNat a < idToNat b → leadZeros b ≤ leadZeros a) := by
  obtain ⟨hal, hav⟩ := ha
  obtain ⟨hbl, hbv⟩ := hb
  have hea := leadZeros_eq hav
  have heb := leadZeros_eq hbv
  have hsa : Nat.size (idToNat a) ≤ 160 := by
    apply Nat.size_le.mpr
    have := idToNat_lt_pow hav
    rw [pow256_eq, hal] at this
    simpa using this
  have hsb : Nat.size (idToNat b) ≤ 160 := by
    apply Nat.size_le.mpr
    have := idToNat_lt_pow hbv
    rw [pow256_eq, hbl] at this
    simpa using this
  rw [hal] at hea
  rw [hbl] at heb
  norm_num [ID_LEN] at hea heb
  constructor
  · intro hlt
    rw [hea, heb] at hlt
    have hss : Nat.size (idToNat a) < Nat.size (idToNat b) := by omega
    have h1 : idToNat a < 2 ^ Nat.size (idToNat a) := Nat.lt_size_self _
    have h2 : 2 ^ (Nat.size (idToNat b) - 1) ≤ idToNat b :=
      Nat.lt_size.mp (by omega)
    have h3 : 2 ^ Nat.size (idToNat a) ≤ 2 ^ (Nat.size (idToNat b) - 1) :=
      Nat.pow_le_pow_right (by norm_num) (by omega)
    omega
  · intro hlt
    have := Nat.size_le_size (Nat.le_of_lt hlt)
    omega

/-- C9 witness: the amended theorem applied at the concrete identifiers
0x00..01 (159 leading zeros) and 0x80..00 (0 leading zeros). -/
theorem claim_C9_witness :
    IsId (List.replicate 19 0 ++ [1]) ∧ IsId (128 :: List.replicate 19 0) ∧
    ((leadZeros (128 :: List.replicate 19 0) < leadZeros (List.replicate 19 0 ++ [1]) →
      idToNat (List.replicate 19 0 ++ [1]) < idToNat (128 :: List.replicate 19 0)) ∧
     (idToNat (List.replicate 19 0 ++ [1]) < idToNat (128 :: List.replicate 19 0) →
      leadZeros (128 :: List.replicate 19 0) ≤ leadZeros (List.replicate 19 0 ++ [1]))) :=
  ⟨by constructor <;> decide, by constructor <;> decide,
   claim_C9_amended _ _ ⟨by decide, by decide⟩ ⟨by decide, by decide⟩⟩

end Wdht
